import Mathlib

/-!
Verification development for the BSBI search-engine backend.

Embedded source files: `compression.py` (postings codecs) and `bsbi.py`
(block inversion, external merge, term-at-a-time retrieval).

The helper modules `util.py` (IdMap, merge_and_sort_posts_and_tfs) and
`index.py` (InvertedIndexReader/Writer) are not part of the sources at
hand; the definitions standing in for them are modelled from the
specification and carry a doc comment saying so.

Conventions:
* Python ints are `Int` (or `Nat` where the source guarantees
  non-negativity); byte values are `Nat` in `[0, 256)`.
* `array.array("L")` is the CPython array type code `L` (C `unsigned
  long`), which on an LP64 Linux build has `itemsize == 8` and
  little-endian layout; an item outside `[0, 2^64)` raises
  `OverflowError`, modelled as `none`.
* `%` and `//` on Python ints are floor operations, hence `Int.fmod`
  and `Int.fdiv`.
-/

/-- `l.flatMap f` written out, so that proofs can unfold it one
constructor at a time. -/
def concatMap (f : α → List β) : List α → List β
  | [] => []
  | x :: xs => f x ++ concatMap f xs

/-- Little-endian byte expansion of one `array("L")` item into `w` bytes,
as laid out by `tobytes()` on a little-endian machine. -/
def leBytes : Nat → Nat → List Nat
  | 0, _ => []
  | w + 1, n => n % 256 :: leBytes w (n / 256)

/-- Value of a little-endian byte list (inverse of `leBytes` on one item). -/
def leVal : List Nat → Nat
  | [] => 0
  | b :: bs => b + 256 * leVal bs

/-- `itemsize` of `array.array("L")` on LP64 Linux. -/
def ulSize : Nat := 8

/-- Exclusive upper bound of a C `unsigned long` item: `2 ^ 64`. -/
def ulBound : Nat := 2 ^ (8 * ulSize)

/-- `array.array("L", xs).tobytes()`.  Every item must be a non-negative
int below `2^64`, otherwise CPython raises `OverflowError` (`none`). -/
def arrayL_tobytes (xs : List Int) : Option (List Nat) :=
  if xs.all fun x => decide (0 ≤ x ∧ x < (ulBound : Int)) then
    some (concatMap (fun x => leBytes ulSize x.toNat) xs)
  else none

/-- `a = array.array("L"); a.frombytes(bs); a.tolist()`.  The byte string
must split into 8-byte items, otherwise `frombytes` raises (`none`). -/
def arrayL_frombytes : List Nat → Option (List Int)
  | [] => some []
  | b0 :: b1 :: b2 :: b3 :: b4 :: b5 :: b6 :: b7 :: rest =>
    (arrayL_frombytes rest).map fun l =>
      ((leVal [b0, b1, b2, b3, b4, b5, b6, b7] : Nat) : Int) :: l
  | _ => none

namespace StandardPostings

/-- `StandardPostings.encode` from compression.py. -/
def encode (postings_list : List Int) : Option (List Nat) :=
  arrayL_tobytes postings_list

/-- `StandardPostings.decode` from compression.py. -/
def decode (encoded_postings_list : List Nat) : Option (List Int) :=
  arrayL_frombytes encoded_postings_list

/-- `StandardPostings.encode_tf` from compression.py. -/
def encode_tf (tf_list : List Int) : Option (List Nat) :=
  encode tf_list

/-- `StandardPostings.decode_tf` from compression.py. -/
def decode_tf (encoded_tf_list : List Nat) : Option (List Int) :=
  decode encoded_tf_list

end StandardPostings

namespace VBEPostings

/-- The big-endian base-128 digit list accumulated by the `while True`
loop of `vb_encode_number` (before the final `bytes[-1] += 128`):
each pass prepends `number % 128` and stops once `number < 128`. -/
def vbDigits (number : Int) : List Int :=
  if number < 128 then [Int.fmod number 128]
  else vbDigits (Int.fdiv number 128) ++ [Int.fmod number 128]
termination_by number.toNat
decreasing_by
  have h128 : (128 : Int) ≤ number := by omega
  have heq : Int.fmod number 128 + 128 * Int.fdiv number 128 = number :=
    Int.fmod_add_fdiv number 128
  have hr0 : (0 : Int) ≤ Int.fmod number 128 :=
    Int.fmod_nonneg (by omega) (by norm_num)
  have hq0 : (0 : Int) ≤ Int.fdiv number 128 :=
    Int.fdiv_nonneg (by omega) (by norm_num)
  omega

/-- `bytes[-1] += 128` on the digit list. -/
def addLast128 : List Int → List Int
  | [] => []
  | [x] => [x + 128]
  | x :: y :: rest => x :: addLast128 (y :: rest)

/-- `VBEPostings.vb_encode_number` from compression.py. -/
def vb_encode_number (number : Int) : List Int :=
  addLast128 (vbDigits number)

/-- `VBEPostings.vb_encode` from compression.py: concatenate the per-number
byte groups, then serialize the resulting list with
`array.array("L", bytestream).tobytes()`. -/
def vb_encode (list_of_numbers : List Int) : Option (List Nat) :=
  arrayL_tobytes (concatMap vb_encode_number list_of_numbers)

/-- The loop of `np.diff([0] + postings_list)`: consecutive differences,
seeded with 0.  For the lists reachable here (int64/uint64 values of a
sorted postings list, or small int64 values) numpy computes the exact
integer differences. -/
def npDiffGo (prev : Int) : List Int → List Int
  | [] => []
  | x :: xs => (x - prev) :: npDiffGo x xs

/-- `np.diff([0] + l).tolist()`. -/
def npDiff0 (l : List Int) : List Int := npDiffGo 0 l

/-- Largest numpy `int64` value. -/
def int64max : Int := 2 ^ 63 - 1

/-- Smallest numpy `int64` value. -/
def int64min : Int := -(2 ^ 63)

/-- Largest numpy `uint64` value. -/
def uint64max : Int := 2 ^ 64 - 1

/-- Reduce an exact sum to the signed 64-bit value numpy's wrapping
`int64` addition produces. -/
def toInt64 (x : Int) : Int :=
  if Int.emod x (2 ^ 64) < 2 ^ 63 then Int.emod x (2 ^ 64)
  else Int.emod x (2 ^ 64) - 2 ^ 64

/-- The accumulator loop of `np.cumsum` on an `int64` array: every
partial sum silently wraps at `2^63`. -/
def npCumsumGo64 (acc : Int) : List Int → List Int
  | [] => []
  | x :: xs => toInt64 (acc + x) :: npCumsumGo64 (toInt64 (acc + x)) xs

/-- The accumulator loop of `np.cumsum` on a `uint64` array: every
partial sum wraps modulo `2^64`. -/
def npCumsumGoU64 (acc : Int) : List Int → List Int
  | [] => []
  | x :: xs => Int.emod (acc + x) (2 ^ 64) :: npCumsumGoU64 (Int.emod (acc + x) (2 ^ 64)) xs

/-- The accumulator loop of `np.cumsum` on an `object` array (Python
ints): exact, unbounded sums. -/
def npCumsumGo (acc : Int) : List Int → List Int
  | [] => []
  | x :: xs => (acc + x) :: npCumsumGo (acc + x) xs

/-- `np.cumsum(l).tolist()` with numpy's dtype inference for a list of
Python ints: an `int64` array (wrapping at `2^63`) when every value
fits `int64`, else a `uint64` array (wrapping at `2^64`) when every
value is in `[0, 2^64)`, else an `object` array of exact Python
ints. -/
def npCumsum (l : List Int) : List Int :=
  if l.all fun x => decide (int64min ≤ x ∧ x ≤ int64max) then npCumsumGo64 0 l
  else if l.all fun x => decide (0 ≤ x ∧ x ≤ uint64max) then npCumsumGoU64 0 l
  else npCumsumGo 0 l

/-- `VBEPostings.encode` from compression.py. -/
def encode (postings_list : List Int) : Option (List Nat) :=
  vb_encode (npDiff0 postings_list)

/-- `VBEPostings.encode_tf` from compression.py. -/
def encode_tf (tf_list : List Int) : Option (List Nat) :=
  vb_encode tf_list

/-- The byte loop of `VBEPostings.vb_decode`, carrying the accumulator
`n`; a byte `< 128` extends `n`, a byte `≥ 128` finishes a number. -/
def vb_decode_go (n : Int) : List Int → List Int
  | [] => []
  | byte :: rest =>
    if byte < 128 then vb_decode_go (128 * n + byte) rest
    else (128 * n + byte - 128) :: vb_decode_go 0 rest

/-- `VBEPostings.vb_decode` from compression.py. -/
def vb_decode (encoded_bytestream : List Int) : List Int :=
  vb_decode_go 0 encoded_bytestream

/-- `VBEPostings.decode` from compression.py: `frombytes` into `array("L")`
items, `vb_decode` those, then `np.cumsum`. -/
def decode (encoded_postings_list : List Nat) : Option (List Int) :=
  (arrayL_frombytes encoded_postings_list).map fun ds => npCumsum (vb_decode ds)

/-- `VBEPostings.decode_tf` from compression.py: `vb_decode` applied to the
raw bytes directly (no `frombytes` step, unlike `decode`). -/
def decode_tf (encoded_tf_list : List Nat) : List Int :=
  vb_decode (encoded_tf_list.map Int.ofNat)

end VBEPostings

namespace VBEPostings

lemma vbDigits_of_lt (n : Int) (h : n < 128) : vbDigits n = [Int.fmod n 128] := by
  rw [vbDigits]
  simp [h]

lemma vbDigits_of_ge (n : Int) (h : 128 ≤ n) :
    vbDigits n = vbDigits (Int.fdiv n 128) ++ [Int.fmod n 128] := by
  rw [vbDigits]
  simp [not_lt.mpr h]

end VBEPostings

/-! ### Codec lemmas -/

lemma leVal_leBytes (w : Nat) : ∀ n : Nat, n < 2 ^ (8 * w) → leVal (leBytes w n) = n := by
  induction w with
  | zero => intro n h; simpa [leBytes, leVal] using by omega
  | succ w ih =>
    intro n h
    have hdiv : n / 256 < 2 ^ (8 * w) := by
      apply Nat.div_lt_of_lt_mul
      calc n < 2 ^ (8 * (w + 1)) := h
        _ = 256 * 2 ^ (8 * w) := by ring
    simp only [leBytes, leVal, ih (n / 256) hdiv]
    omega

lemma leBytes_length (w n : Nat) : (leBytes w n).length = w := by
  induction w generalizing n with
  | zero => simp [leBytes]
  | succ w ih => simp [leBytes, ih]

lemma arrayL_frombytes_leBytes_cons (n : Nat) (rest : List Nat) :
    arrayL_frombytes (leBytes 8 n ++ rest) =
      (arrayL_frombytes rest).map fun l => ((leVal (leBytes 8 n) : Nat) : Int) :: l := by
  simp [leBytes, leVal, arrayL_frombytes]

lemma arrayL_frombytes_concatMap (xs : List Int)
    (h : ∀ x ∈ xs, 0 ≤ x ∧ x < (ulBound : Int)) :
    arrayL_frombytes (concatMap (fun x => leBytes ulSize x.toNat) xs) = some xs := by
  induction xs with
  | nil => simp [concatMap, arrayL_frombytes]
  | cons x xs ih =>
    have hx := h x (by simp)
    have hxs : ∀ y ∈ xs, 0 ≤ y ∧ y < (ulBound : Int) := fun y hy => h y (by simp [hy])
    have hbnd : x.toNat < 2 ^ (8 * 8) := by
      have : x.toNat < ulBound := by
        have h1 := hx.1
        have h2 := hx.2
        simp only [ulBound, ulSize] at h2 ⊢
        omega
      simpa [ulBound, ulSize] using this
    show arrayL_frombytes (leBytes 8 x.toNat ++ concatMap (fun x => leBytes ulSize x.toNat) xs)
        = some (x :: xs)
    rw [arrayL_frombytes_leBytes_cons, ih hxs]
    simp [leVal_leBytes 8 x.toNat hbnd, Int.toNat_of_nonneg hx.1]

lemma arrayL_tobytes_eq_some (xs : List Int)
    (h : ∀ x ∈ xs, 0 ≤ x ∧ x < (ulBound : Int)) :
    arrayL_tobytes xs = some (concatMap (fun x => leBytes ulSize x.toNat) xs) := by
  unfold arrayL_tobytes
  rw [if_pos]
  rw [List.all_eq_true]
  intro x hx
  exact decide_eq_true (h x hx)

/-- The fixed-width round trip through `array("L")`. -/
lemma arrayL_roundtrip (xs : List Int)
    (h : ∀ x ∈ xs, 0 ≤ x ∧ x < (ulBound : Int)) :
    (arrayL_tobytes xs).bind arrayL_frombytes = some xs := by
  rw [arrayL_tobytes_eq_some xs h]
  simpa using arrayL_frombytes_concatMap xs h

namespace VBEPostings

lemma vbDigits_mem_bounds (n : Int) : ∀ d ∈ vbDigits n, 0 ≤ d ∧ d < 128 := by
  induction n using vbDigits.induct with
  | case1 n h =>
    intro d hd
    rw [vbDigits_of_lt n h] at hd
    simp only [List.mem_singleton] at hd
    subst hd
    rw [Int.fmod_eq_emod _ (by norm_num)]
    exact ⟨Int.emod_nonneg n (by norm_num), Int.emod_lt_of_pos n (by norm_num)⟩
  | case2 n h ih =>
    intro d hd
    rw [vbDigits_of_ge n (by omega)] at hd
    rcases List.mem_append.mp hd with h1 | h2
    · exact ih d h1
    · simp only [List.mem_singleton] at h2
      subst h2
      rw [Int.fmod_eq_emod _ (by norm_num)]
      exact ⟨Int.emod_nonneg n (by norm_num), Int.emod_lt_of_pos n (by norm_num)⟩

lemma vbDigits_ne_nil (n : Int) : vbDigits n ≠ [] := by
  by_cases h : n < 128
  · rw [vbDigits_of_lt n h]; simp
  · rw [vbDigits_of_ge n (by omega)]; simp

lemma addLast128_bounds : ∀ l : List Int, (∀ d ∈ l, 0 ≤ d ∧ d < 128) →
    ∀ d ∈ addLast128 l, 0 ≤ d ∧ d < 256
  | [], _, d, hd => by simp [addLast128] at hd
  | [x], h, d, hd => by
    have hx := h x (by simp)
    simp only [addLast128, List.mem_singleton] at hd
    subst hd
    omega
  | x :: y :: rest, h, d, hd => by
    simp only [addLast128, List.mem_cons] at hd
    rcases hd with rfl | hd
    · have hx := h d (by simp)
      omega
    · exact addLast128_bounds (y :: rest)
        (fun e he => h e (List.mem_cons_of_mem x he)) d hd

lemma vb_encode_number_bounds (n : Int) :
    ∀ d ∈ vb_encode_number n, 0 ≤ d ∧ d < 256 :=
  addLast128_bounds (vbDigits n) (vbDigits_mem_bounds n)

lemma addLast128_append (l : List Int) (y : Int) :
    addLast128 (l ++ [y]) = l ++ [y + 128] := by
  induction l with
  | nil => simp [addLast128]
  | cons x xs ih =>
    cases xs with
    | nil => simp [addLast128]
    | cons z zs => simpa [addLast128] using ih

lemma vb_decode_go_digits (n : Int) (hn : 0 ≤ n) :
    ∀ (acc : Int) (rest : List Int),
      vb_decode_go acc (vbDigits n ++ rest)
        = vb_decode_go (acc * 128 ^ (vbDigits n).length + n) rest := by
  induction n using vbDigits.induct with
  | case1 n h =>
    intro acc rest
    have hfm : Int.fmod n 128 = n := by
      rw [Int.fmod_eq_emod _ (by norm_num)]
      exact Int.emod_eq_of_lt hn h
    rw [vbDigits_of_lt n h, hfm]
    simp only [List.singleton_append, vb_decode_go, if_pos h, List.length_singleton,
      pow_one]
    ring_nf
    simp
  | case2 n h ih =>
    intro acc rest
    have h128 : (128 : Int) ≤ n := by omega
    have hq0 : (0 : Int) ≤ Int.fdiv n 128 := Int.fdiv_nonneg (by omega) (by norm_num)
    have hm : 0 ≤ Int.fmod n 128 ∧ Int.fmod n 128 < 128 := by
      rw [Int.fmod_eq_emod _ (by norm_num)]
      exact ⟨Int.emod_nonneg n (by norm_num), Int.emod_lt_of_pos n (by norm_num)⟩
    have hsum : Int.fmod n 128 + 128 * Int.fdiv n 128 = n := Int.fmod_add_fdiv n 128
    rw [vbDigits_of_ge n h128, List.append_assoc, List.singleton_append,
      ih hq0 acc (Int.fmod n 128 :: rest)]
    simp only [vb_decode_go, if_neg (not_lt.mpr hm.1), List.length_append,
      List.length_singleton]
    rw [if_pos hm.2]
    have : 128 * (acc * 128 ^ (vbDigits (Int.fdiv n 128)).length + Int.fdiv n 128)
        + Int.fmod n 128
        = acc * 128 ^ ((vbDigits (Int.fdiv n 128)).length + 1) + n := by
      rw [pow_succ]
      ring_nf
      omega
    rw [this]

lemma vb_decode_go_group (n : Int) (hn : 0 ≤ n) (rest : List Int) :
    vb_decode_go 0 (vb_encode_number n ++ rest) = n :: vb_decode_go 0 rest := by
  by_cases h : n < 128
  · have hfm : Int.fmod n 128 = n := by
      rw [Int.fmod_eq_emod _ (by norm_num)]
      exact Int.emod_eq_of_lt hn h
    show vb_decode_go 0 (addLast128 (vbDigits n) ++ rest) = n :: vb_decode_go 0 rest
    rw [vbDigits_of_lt n h, hfm]
    show vb_decode_go 0 ((n + 128) :: rest) = n :: vb_decode_go 0 rest
    simp only [vb_decode_go, if_neg (by omega : ¬ n + 128 < 128)]
    norm_num
  · have h128 : (128 : Int) ≤ n := by omega
    have hq0 : (0 : Int) ≤ Int.fdiv n 128 := Int.fdiv_nonneg (by omega) (by norm_num)
    have hm : 0 ≤ Int.fmod n 128 ∧ Int.fmod n 128 < 128 := by
      rw [Int.fmod_eq_emod _ (by norm_num)]
      exact ⟨Int.emod_nonneg n (by norm_num), Int.emod_lt_of_pos n (by norm_num)⟩
    have hsum : Int.fmod n 128 + 128 * Int.fdiv n 128 = n := Int.fmod_add_fdiv n 128
    show vb_decode_go 0 (addLast128 (vbDigits n) ++ rest) = n :: vb_decode_go 0 rest
    rw [vbDigits_of_ge n h128, addLast128_append, List.append_assoc,
      List.singleton_append, vb_decode_go_digits _ hq0 0 _]
    simp only [vb_decode_go, if_neg (by omega : ¬ Int.fmod n 128 + 128 < 128)]
    rw [zero_mul, zero_add]
    have hval : 128 * Int.fdiv n 128 + (Int.fmod n 128 + 128) - 128 = n := by omega
    rw [hval]

lemma vb_decode_concatMap (gaps : List Int) (h : ∀ g ∈ gaps, 0 ≤ g) :
    vb_decode (concatMap vb_encode_number gaps) = gaps := by
  induction gaps with
  | nil => simp [concatMap, vb_decode, vb_decode_go]
  | cons g gs ih =>
    show vb_decode_go 0 (vb_encode_number g ++ concatMap vb_encode_number gs) = g :: gs
    rw [vb_decode_go_group g (h g (by simp))]
    have := ih fun x hx => h x (by simp [hx])
    simpa [vb_decode] using this

lemma npCumsumGo_npDiffGo (l : List Int) : ∀ p : Int, npCumsumGo p (npDiffGo p l) = l := by
  induction l with
  | nil => intro p; simp [npDiffGo, npCumsumGo]
  | cons x xs ih =>
    intro p
    simp only [npDiffGo, npCumsumGo]
    rw [show p + (x - p) = x by ring]
    simp [ih x]

lemma npDiffGo_nonneg (l : List Int) : ∀ p : Int, List.Chain' (· ≤ ·) (p :: l) →
    ∀ g ∈ npDiffGo p l, 0 ≤ g := by
  induction l with
  | nil => intro p _ g hg; simp [npDiffGo] at hg
  | cons x xs ih =>
    intro p hc g hg
    rw [List.chain'_cons] at hc
    simp only [npDiffGo, List.mem_cons] at hg
    rcases hg with rfl | hg
    · omega
    · exact ih x hc.2 g hg

lemma npDiffGo_le_max (l : List Int) : ∀ p : Int, 0 ≤ p → (∀ x ∈ l, x < 2 ^ 63) →
    List.Chain' (· ≤ ·) (p :: l) → ∀ g ∈ npDiffGo p l, g ≤ int64max := by
  induction l with
  | nil => intro p _ _ _ g hg; simp [npDiffGo] at hg
  | cons x xs ih =>
    intro p hp hbound hc g hg
    rw [List.chain'_cons] at hc
    simp only [npDiffGo, List.mem_cons] at hg
    have hx : x < 2 ^ 63 := hbound x (by simp)
    rcases hg with rfl | hg
    · unfold int64max
      omega
    · exact ih x (by omega) (fun y hy => hbound y (by simp [hy])) hc.2 g hg

lemma toInt64_of_range (x : Int) (h0 : 0 ≤ x) (h1 : x < 2 ^ 63) : toInt64 x = x := by
  have hm : Int.emod x (2 ^ 64) = x := Int.emod_eq_of_lt h0 (by omega)
  unfold toInt64
  rw [hm]
  rw [if_pos h1]

/-- On the `int64` path, decoding the gap sequence of a non-decreasing
list whose elements stay below `2^63` recovers the list exactly: every
partial sum is one of the original elements, hence in range. -/
lemma npCumsumGo64_npDiffGo (l : List Int) : ∀ p : Int, 0 ≤ p →
    (∀ x ∈ l, x < 2 ^ 63) → List.Chain' (· ≤ ·) (p :: l) →
    npCumsumGo64 p (npDiffGo p l) = l := by
  induction l with
  | nil => intro p _ _ _; simp [npDiffGo, npCumsumGo64]
  | cons x xs ih =>
    intro p hp hbound hc
    rw [List.chain'_cons] at hc
    have hx : x < 2 ^ 63 := hbound x (by simp)
    have hsum : toInt64 (p + (x - p)) = x := by
      rw [show p + (x - p) = x by ring]
      exact toInt64_of_range x (by omega) hx
    simp only [npDiffGo, npCumsumGo64, hsum]
    rw [ih x (by omega) (fun y hy => hbound y (by simp [hy])) hc.2]

end VBEPostings

lemma mem_concatMap {f : α → List β} {l : List α} {x : β}
    (h : x ∈ concatMap f l) : ∃ a ∈ l, x ∈ f a := by
  induction l with
  | nil => simp [concatMap] at h
  | cons y ys ih =>
    simp only [concatMap, List.mem_append] at h
    rcases h with h | h
    · exact ⟨y, by simp, h⟩
    · obtain ⟨a, ha, hx⟩ := ih h
      exact ⟨a, by simp [ha], hx⟩

lemma concatMap_congr {f g : α → List β} {l : List α}
    (h : ∀ a ∈ l, f a = g a) : concatMap f l = concatMap g l := by
  induction l with
  | nil => rfl
  | cons y ys ih =>
    simp only [concatMap]
    rw [h y (by simp), ih fun a ha => h a (by simp [ha])]

lemma concatMap_singletons (g : β → List γ) (h : α → β) (l : List α) :
    concatMap g (concatMap (fun x => [h x]) l) = concatMap (fun x => g (h x)) l := by
  induction l with
  | nil => rfl
  | cons y ys ih => simp [concatMap, ih]

lemma leBytes_zero (w : Nat) : leBytes w 0 = List.replicate w 0 := by
  induction w with
  | zero => rfl
  | succ w ih => simp [leBytes, ih, List.replicate]

lemma leBytes_eight_small (m : Nat) (h : m < 256) :
    leBytes 8 m = m :: List.replicate 7 0 := by
  have h1 : m % 256 = m := Nat.mod_eq_of_lt h
  have h2 : m / 256 = 0 := Nat.div_eq_of_lt h
  rw [show (8 : Nat) = 7 + 1 from rfl, leBytes, h1, h2, leBytes_zero]

namespace VBEPostings

/-- Decoding the encoding always reaches the `np.cumsum` of the exact
gap sequence (the digit stream survives its `array("L")` round trip
and the variable-byte groups decode to the gaps as long as these are
non-negative); whether that cumulative sum is the original list is a
separate, dtype-dependent question. -/
lemma vbe_decode_encode_eq (L : List Int) (hgaps : ∀ g ∈ npDiff0 L, 0 ≤ g) :
    (encode L).bind decode = some (npCumsum (npDiff0 L)) := by
  have hdig : ∀ d ∈ concatMap vb_encode_number (npDiff0 L),
      0 ≤ d ∧ d < (ulBound : Int) := by
    intro d hd
    obtain ⟨g, _, hdg⟩ := mem_concatMap hd
    have := vb_encode_number_bounds g d hdg
    constructor
    · exact this.1
    · calc d < 256 := this.2
        _ < (ulBound : Int) := by norm_num [ulBound, ulSize]
  show (vb_encode (npDiff0 L)).bind decode = some (npCumsum (npDiff0 L))
  unfold vb_encode
  rw [arrayL_tobytes_eq_some _ hdig]
  show decode (concatMap (fun x => leBytes ulSize x.toNat)
      (concatMap vb_encode_number (npDiff0 L))) = some (npCumsum (npDiff0 L))
  unfold decode
  rw [arrayL_frombytes_concatMap _ hdig]
  rw [Option.map_some']
  rw [vb_decode_concatMap _ hgaps]

lemma vbe_roundtrip (L : List Int) (hchain : List.Chain' (· ≤ ·) L)
    (hbound : ∀ x ∈ L, 0 ≤ x ∧ x < 2 ^ 63) :
    (encode L).bind decode = some L := by
  have hchain0 : List.Chain' (· ≤ ·) ((0 : Int) :: L) := by
    cases L with
    | nil => simp
    | cons x xs =>
      rw [List.chain'_cons]
      exact ⟨(hbound x (by simp)).1, hchain⟩
  have hlt : ∀ x ∈ L, x < 2 ^ 63 := fun x hx => (hbound x hx).2
  have hgaps : ∀ g ∈ npDiff0 L, 0 ≤ g := npDiffGo_nonneg L 0 hchain0
  have hmax : ∀ g ∈ npDiff0 L, g ≤ int64max :=
    npDiffGo_le_max L 0 (le_refl 0) hlt hchain0
  rw [vbe_decode_encode_eq L hgaps]
  have hcond : (npDiff0 L).all (fun x => decide (int64min ≤ x ∧ x ≤ int64max)) = true := by
    rw [List.all_eq_true]
    intro g hg
    refine decide_eq_true ⟨?_, hmax g hg⟩
    have := hgaps g hg
    unfold int64min
    omega
  unfold npCumsum
  rw [if_pos hcond]
  show some (npCumsumGo64 0 (npDiffGo 0 L)) = some L
  rw [npCumsumGo64_npDiffGo L 0 (le_refl 0) hlt hchain0]

/-- For a term frequency `0 ≤ x < 128` the encoder emits the single group
`[x + 128]`. -/
lemma vb_encode_number_small (x : Int) (h0 : 0 ≤ x) (h1 : x < 128) :
    vb_encode_number x = [x + 128] := by
  have hfm : Int.fmod x 128 = x := by
    rw [Int.fmod_eq_emod _ (by norm_num)]
    exact Int.emod_eq_of_lt h0 h1
  show addLast128 (vbDigits x) = [x + 128]
  rw [vbDigits_of_lt x h1, hfm]
  rfl

/-- `encode_tf` on small term frequencies: each value becomes one stop
byte followed by the seven zero padding bytes of its unsigned long. -/
lemma encode_tf_small (L : List Int) (h : ∀ x ∈ L, 0 ≤ x ∧ x < 128) :
    encode_tf L = some (concatMap (fun x => (x + 128).toNat :: List.replicate 7 0) L) := by
  have hgroups : concatMap vb_encode_number L = concatMap (fun x => [x + 128]) L :=
    concatMap_congr fun x hx => vb_encode_number_small x (h x hx).1 (h x hx).2
  have hdig : ∀ d ∈ concatMap vb_encode_number L, 0 ≤ d ∧ d < (ulBound : Int) := by
    intro d hd
    obtain ⟨g, _, hdg⟩ := mem_concatMap hd
    have := vb_encode_number_bounds g d hdg
    exact ⟨this.1, by calc d < 256 := this.2
      _ < (ulBound : Int) := by norm_num [ulBound, ulSize]⟩
  have hle : concatMap (fun x => leBytes ulSize (x + 128).toNat) L
      = concatMap (fun x => (x + 128).toNat :: List.replicate 7 0) L := by
    refine concatMap_congr fun x hx => ?_
    have hx' := h x hx
    exact leBytes_eight_small _ (by omega)
  show vb_encode L = _
  unfold vb_encode
  rw [arrayL_tobytes_eq_some _ hdig, hgroups, concatMap_singletons, hle]

lemma vb_decode_go_stop (n byte : Int) (h : ¬ byte < 128) (rest : List Int) :
    vb_decode_go n (byte :: rest) = (128 * n + byte - 128) :: vb_decode_go 0 rest := by
  simp only [vb_decode_go, if_neg h]

lemma vb_decode_go_zero_pad (rest : List Int) :
    ∀ k : Nat, vb_decode_go 0 (List.replicate k (0 : Int) ++ rest) = vb_decode_go 0 rest := by
  intro k
  induction k with
  | zero => rfl
  | succ k ih =>
    show vb_decode_go 0 ((0 : Int) :: (List.replicate k (0 : Int) ++ rest)) = _
    simp only [vb_decode_go, if_pos (by norm_num : (0 : Int) < 128)]
    simpa using ih

lemma vb_decode_small_stream (L : List Int) (h : ∀ x ∈ L, 0 ≤ x ∧ x < 128) :
    vb_decode ((concatMap (fun x => ((x + 128).toNat :: List.replicate 7 0 : List Nat)) L).map
      Int.ofNat) = L := by
  induction L with
  | nil => rfl
  | cons x xs ih =>
    have hx := h x (by simp)
    have hxs : ∀ y ∈ xs, 0 ≤ y ∧ y < 128 := fun y hy => h y (by simp [hy])
    show vb_decode_go 0 (((((x + 128).toNat :: List.replicate 7 0 : List Nat))
        ++ concatMap (fun x => ((x + 128).toNat :: List.replicate 7 0 : List Nat)) xs).map
        Int.ofNat) = x :: xs
    rw [List.map_append, List.map_cons, List.map_replicate]
    have hcast : Int.ofNat (x + 128).toNat = x + 128 := by
      rw [show Int.ofNat (x + 128).toNat = (((x + 128).toNat : Nat) : Int) from rfl]
      exact Int.toNat_of_nonneg (by omega)
    rw [hcast]
    rw [show List.replicate 7 (Int.ofNat 0) = List.replicate 7 (0 : Int) from rfl]
    rw [List.cons_append]
    rw [vb_decode_go_stop 0 (x + 128) (by omega)]
    rw [vb_decode_go_zero_pad _ 7]
    have hv : (128 : Int) * 0 + (x + 128) - 128 = x := by ring
    rw [hv]
    exact congrArg (x :: ·) (ih hxs)

/-- Round trip of the term-frequency codec for values below 128. -/
lemma tf_roundtrip_small (L : List Int) (h : ∀ x ∈ L, 0 ≤ x ∧ x < 128) :
    (encode_tf L).map decode_tf = some L := by
  rw [encode_tf_small L h]
  rw [Option.map_some']
  unfold decode_tf
  rw [vb_decode_small_stream L h]

end VBEPostings

/-! ### bsbi.py: data model

`util.py` and `index.py` are not among the sources; `IdMap`, the reader
lookup and `merge_and_sort_posts_and_tfs` below are modelled from the
specification (they carry a note in their doc comment). -/

/-- Stable insertion into a sorted list, `le` a Boolean comparator. -/
def insertBy (le : α → α → Bool) (x : α) : List α → List α
  | [] => [x]
  | y :: ys => if le x y then x :: y :: ys else y :: insertBy le x ys

/-- Stable insertion sort; on any comparator for which Python `sorted` is
deterministic (a total preorder) this is extensionally Python `sorted`,
both being stable. -/
def insSortBy (le : α → α → Bool) : List α → List α
  | [] => []
  | x :: xs => insertBy le x (insSortBy le xs)

/-- Python `dict.get(k, d)` on an insertion-ordered association list. -/
def alistGetD (m : List (Nat × α)) (k : Nat) (d : α) : α :=
  match m.find? fun e => e.1 == k with
  | some e => e.2
  | none => d

/-- Python `m[k] = v`: replace in place if the key exists, else append. -/
def alistSet : List (Nat × α) → Nat → α → List (Nat × α)
  | [], k, v => [(k, v)]
  | e :: rest, k, v =>
    if e.1 = k then (k, v) :: rest else e :: alistSet rest k v

/-- Modelled from the spec: IdentifierMap, a bidirectional string/id
registry with dense first-seen-gets-next-id assignment (ids are list
positions of `strs`). -/
structure IdMap where
  strs : List String
deriving DecidableEq

/-- Position of a string in the registry (the `str_to_id` direction). -/
def strIndex : List String → String → Option Nat
  | [], _ => none
  | s :: rest, t => if s = t then some 0 else (strIndex rest t).map (· + 1)

/-- Modelled from the spec: IdentifierMap auto-create-on-lookup with a
string key — return the existing id, or assign the next dense id. -/
def IdMap.getOrAssign (m : IdMap) (s : String) : Nat × IdMap :=
  match strIndex m.strs s with
  | some i => (i, m)
  | none => (m.strs.length, ⟨m.strs ++ [s]⟩)

/-- IdentifierMap lookup with an integer key (the inverse direction);
`none` models the IndexError on an unassigned id. -/
def IdMap.getStr (m : IdMap) (i : Nat) : Option String :=
  m.strs.get? i

/-- Modelled from the spec: the in-memory view of an opened
InvertedIndexReader — the directory with decoded postings/tf lists (in
iteration order) and the document-length table. -/
structure InvIndex where
  entries : List (Nat × List Nat × List Nat)
  docLength : List (Nat × Nat)
deriving DecidableEq

/-- Modelled from the spec: `get_postings_list(termId)` returns the
decoded lists for the term, or empty lists when the term is absent
(never an exception for unknown terms). -/
def InvIndex.get_postings_list (idx : InvIndex) (t : Nat) : List Nat × List Nat :=
  match idx.entries.find? fun e => e.1 == t with
  | some e => (e.2.1, e.2.2)
  | none => ([], [])

/-- The retrieval-relevant state of a `BSBIIndex` instance after `load()`. -/
structure BSBIState where
  term_id_map : IdMap
  doc_id_map : IdMap
  index : InvIndex
deriving DecidableEq

namespace BSBIIndex

/-- The body of the `for term in query_terms` iteration of
`retrieve_tfidf` for one term id: `df > 0` guard, `idf = log10(N/df)`,
then accumulate `idf * wtD` per `(doc_id, tf)` with the
`wtD = 1 + log10 tf if tf > 0 else 0` weight. -/
def tfidfStep (lg : ℚ → ℚ) (idx : InvIndex) (N : Nat)
    (scores : List (Nat × ℚ)) (term_id : Nat) : List (Nat × ℚ) :=
  let pl := idx.get_postings_list term_id
  let df := pl.1.length
  if 0 < df then
    let idf := lg ((N : ℚ) / (df : ℚ))
    (pl.1.zip pl.2).foldl (fun sc dt =>
      let wtD : ℚ := if 0 < dt.2 then 1 + lg ((dt.2 : Nat) : ℚ) else 0
      alistSet sc dt.1 (alistGetD sc dt.1 0 + idf * wtD)) scores
  else scores

/-- The body of the `for term in query_terms` iteration of
`retrieve_bm25` for one term id: identical traversal, but the per-posting
score is `(1 + log10 tf) * idf` with no `tf > 0` guard and no use of
`k1`/`b`. -/
def bm25Step (lg : ℚ → ℚ) (idx : InvIndex) (N : Nat)
    (scores : List (Nat × ℚ)) (term_id : Nat) : List (Nat × ℚ) :=
  let pl := idx.get_postings_list term_id
  let df := pl.1.length
  if 0 < df then
    let idf := lg ((N : ℚ) / (df : ℚ))
    (pl.1.zip pl.2).foldl (fun sc dt =>
      let score : ℚ := (1 + lg ((dt.2 : Nat) : ℚ)) * idf
      alistSet sc dt.1 (alistGetD sc dt.1 0 + score)) scores
  else scores

/-- The shared term loop of both retrieval functions:
`term_id = self.term_id_map[term]` (an auto-create lookup that may grow
the map), then the per-term scoring step. -/
def taatLoop (step : List (Nat × ℚ) → Nat → List (Nat × ℚ)) :
    List String → IdMap → List (Nat × ℚ) → List (Nat × ℚ) × IdMap
  | [], m, sc => (sc, m)
  | term :: rest, m, sc =>
    let r := m.getOrAssign term
    taatLoop step rest r.2 (step sc r.1)

/-- `sorted(scores.items(), key=lambda x: x[1], reverse=True)` followed by
`[:k]` and documentPath resolution through `doc_id_map[doc_id]`. -/
def rankTopK (doc_id_map : IdMap) (scores : List (Nat × ℚ)) (k : Nat) :
    List (ℚ × Option String) :=
  ((insSortBy (fun a b => decide (b.2 ≤ a.2)) scores).take k).map
    fun p => (p.2, doc_id_map.getStr p.1)

/-- `BSBIIndex.retrieve_tfidf` from bsbi.py.  `lg` stands for
`math.log10`, `normalize` for the external `pre_processing_text`
collaborator; the returned state carries the (possibly grown)
`term_id_map`. -/
def retrieve_tfidf (lg : ℚ → ℚ) (normalize : String → List String)
    (st : BSBIState) (query : String) (k : Nat) :
    List (ℚ × Option String) × BSBIState :=
  let query_terms := normalize query
  let N := st.index.docLength.length
  let r := taatLoop (tfidfStep lg st.index N) query_terms st.term_id_map []
  (rankTopK st.doc_id_map r.1 k, { st with term_id_map := r.2 })

/-- `BSBIIndex.retrieve_bm25` from bsbi.py; accepts `k1` and `b`. -/
def retrieve_bm25 (lg : ℚ → ℚ) (normalize : String → List String)
    (st : BSBIState) (query : String) (k : Nat) (k1 b : ℚ) :
    List (ℚ × Option String) × BSBIState :=
  let query_terms := normalize query
  let N := st.index.docLength.length
  let r := taatLoop (bm25Step lg st.index N) query_terms st.term_id_map []
  (rankTopK st.doc_id_map r.1 k, { st with term_id_map := r.2 })

/-- One `td_pairs` iteration of `write_to_index`: ensure the per-term
dict exists and bump the `(term, doc)` count. -/
def tdStep (m : List (Nat × List (Nat × Nat))) (td : Nat × Nat) :
    List (Nat × List (Nat × Nat)) :=
  let inner := alistGetD m td.1 []
  alistSet m td.1 (alistSet inner td.2 (alistGetD inner td.2 0 + 1))

/-- `BSBIIndex.write_to_index` from bsbi.py; the sequence of
`index.append(term_id, postings_list, tf_list)` calls it makes, in
order. -/
def write_to_index (td_pairs : List (Nat × Nat)) :
    List (Nat × List Nat × List Nat) :=
  let term_dict := td_pairs.foldl tdStep []
  (insSortBy (fun a b => decide (a ≤ b)) (term_dict.map Prod.fst)).map fun t =>
    let inner := alistGetD term_dict t []
    let postings_list := insSortBy (fun a b => decide (a ≤ b)) (inner.map Prod.fst)
    (t, postings_list, postings_list.map fun d => alistGetD inner d 0)

end BSBIIndex

/-! ### External merge (bsbi.py `merge_index`) -/

/-- A `(termId, postings, tf)` triple as yielded by index iteration. -/
abbrev IdxTriple := Nat × List Nat × List Nat

/-- Modelled from the spec: `util.merge_and_sort_posts_and_tfs` combines
two sorted-by-docId `(docId, tf)` zips into one sorted-by-docId,
duplicate-free list by a two-pointer merge; on the same docId (excluded
by the disjoint-blocks precondition) the counts are combined. -/
def merge_and_sort_posts_and_tfs :
    List (Nat × Nat) → List (Nat × Nat) → List (Nat × Nat)
  | [], ys => ys
  | x :: xs, [] => x :: xs
  | x :: xs, y :: ys =>
    if x.1 < y.1 then x :: merge_and_sort_posts_and_tfs xs (y :: ys)
    else if y.1 < x.1 then y :: merge_and_sort_posts_and_tfs (x :: xs) ys
    else (x.1, x.2 + y.2) :: merge_and_sort_posts_and_tfs xs ys
termination_by xs ys => xs.length + ys.length

/-- Two-way stable merge by termId: the behaviour of
`heapq.merge(A, B, key=lambda x: x[0])` on two iterables (the earlier
iterable wins ties). -/
def pyMerge2 : List IdxTriple → List IdxTriple → List IdxTriple
  | [], ys => ys
  | x :: xs, [] => x :: xs
  | x :: xs, y :: ys =>
    if x.1 ≤ y.1 then x :: pyMerge2 xs (y :: ys)
    else y :: pyMerge2 (x :: xs) ys
termination_by xs ys => xs.length + ys.length

/-- `heapq.merge(*indices, key=lambda x: x[0])` over the opened readers,
as the fold of stable two-way merges. -/
def heapqMerge (indices : List (List IdxTriple)) : List IdxTriple :=
  indices.foldr pyMerge2 []

/-- The accumulator combination step of `merge_index` when the incoming
termId equals the current one. -/
def combineTriple (a b : IdxTriple) : IdxTriple :=
  let zip_p_tf := merge_and_sort_posts_and_tfs (a.2.1.zip a.2.2) (b.2.1.zip b.2.2)
  (a.1, zip_p_tf.map Prod.fst, zip_p_tf.map Prod.snd)

/-- The `for t, postings_, tf_list_ in merged_iter` loop of
`merge_index`, starting from the first triple as accumulator; returns
the sequence of `merged_index.append(...)` calls. -/
def mergeLoop : IdxTriple → List IdxTriple → List IdxTriple
  | acc, [] => [acc]
  | acc, t :: more =>
    if t.1 = acc.1 then mergeLoop (combineTriple acc t) more
    else acc :: mergeLoop t more

/-- `BSBIIndex.merge_index` from bsbi.py.  Result: the sequence of
triples appended to the destination writer, and whether the merge
succeeded (`next(merged_iter)` on an empty merged iterator raises
StopIteration before anything is appended — the `false` case). -/
def merge_index (indices : List (List IdxTriple)) : List IdxTriple × Bool :=
  match heapqMerge indices with
  | [] => ([], false)
  | first :: rest => (mergeLoop first rest, true)

/-- Direct two-index merge used to characterize `merge_index` on two
readers: interleave by termId, combining the two triples of a shared
termId. -/
def mergeTwo : List IdxTriple → List IdxTriple → List IdxTriple
  | [], ys => ys
  | x :: xs, [] => x :: xs
  | x :: xs, y :: ys =>
    if x.1 < y.1 then x :: mergeTwo xs (y :: ys)
    else if y.1 < x.1 then y :: mergeTwo (x :: xs) ys
    else combineTriple x y :: mergeTwo xs ys
termination_by xs ys => xs.length + ys.length

/-! ### Specification-side retrieval (for the refinement claim) -/

namespace BSBIIndex

/-- The TF-IDF scorer as the specification words it: for each query term
found in the vocabulary whose document frequency is positive, use
`idf = log10(N/df)` and add `idf * weight` with
`weight = 1 + log10 tf` when `tf > 0` and `0` otherwise, to the running
score of each `(docId, tf)` of the term's postings; finally sort by
score descending and return the top `k` pairs with the documentPath
resolved through the IdentifierMap inverse lookup.  Unknown terms are
skipped silently, and the loaded state is left untouched. -/
def retrieve_tfidf_spec (lg : ℚ → ℚ) (normalize : String → List String)
    (st : BSBIState) (query : String) (k : Nat) : List (ℚ × Option String) :=
  let N := st.index.docLength.length
  let sc := (normalize query).foldl (fun sc term =>
    match strIndex st.term_id_map.strs term with
    | none => sc
    | some term_id =>
      let pl := st.index.get_postings_list term_id
      let df := pl.1.length
      if 0 < df then
        let idf := lg ((N : ℚ) / (df : ℚ))
        (pl.1.zip pl.2).foldl (fun sc dt =>
          let weight : ℚ := if 0 < dt.2 then 1 + lg ((dt.2 : Nat) : ℚ) else 0
          alistSet sc dt.1 (alistGetD sc dt.1 0 + idf * weight)) sc
      else sc) []
  ((insSortBy (fun a b => decide (b.2 ≤ a.2)) sc).take k).map
    fun p => (p.2, st.doc_id_map.getStr p.1)

end BSBIIndex

/-! ### Lookup and loop lemmas for retrieval -/

lemma foldl_congr_mem {f g : β → α → β} :
    ∀ (l : List α) (b : β), (∀ b x, x ∈ l → f b x = g b x) →
      l.foldl f b = l.foldl g b
  | [], _, _ => rfl
  | x :: xs, b, h => by
    simp only [List.foldl_cons]
    rw [h b x (by simp)]
    exact foldl_congr_mem xs (g b x) fun b y hy => h b y (by simp [hy])

lemma strIndex_append_some {l1 : List String} {t : String} {i : Nat}
    (h : strIndex l1 t = some i) (l2 : List String) :
    strIndex (l1 ++ l2) t = some i := by
  induction l1 generalizing i with
  | nil => simp [strIndex] at h
  | cons s rest ih =>
    by_cases hs : s = t
    · simp only [strIndex, if_pos hs] at h ⊢
      exact h
    · simp only [strIndex, if_neg hs, Option.map_eq_some'] at h ⊢
      obtain ⟨j, hj, hji⟩ := h
      exact ⟨j, ih hj, hji⟩

lemma strIndex_append_ge {l1 l2 : List String} {t : String}
    (h : strIndex l1 t = none) :
    ∀ {i : Nat}, strIndex (l1 ++ l2) t = some i → l1.length ≤ i := by
  induction l1 with
  | nil => intro i _; exact Nat.zero_le i
  | cons s rest ih =>
    intro i hi
    by_cases hs : s = t
    · simp [strIndex, if_pos hs] at h
    · simp only [strIndex, if_neg hs] at h hi
      rw [Option.map_eq_none'] at h
      rw [Option.map_eq_some'] at hi
      obtain ⟨j, hj, hji⟩ := hi
      have := ih (h := h) hj
      simp only [List.length_cons]
      omega

lemma strIndex_isSome_iff_mem (l : List String) (t : String) :
    (strIndex l t).isSome ↔ t ∈ l := by
  induction l with
  | nil => simp [strIndex]
  | cons s rest ih =>
    by_cases hs : s = t
    · simp [strIndex, hs]
    · simp only [strIndex, if_neg hs, List.mem_cons]
      rw [show (Option.map (fun x => x + 1) (strIndex rest t)).isSome
          = (strIndex rest t).isSome from by
        rcases strIndex rest t with _ | j <;> rfl]
      rw [ih]
      constructor
      · exact Or.inr
      · rintro (rfl | h)
        · exact absurd rfl hs
        · exact h

namespace BSBIIndex

/-- The visible effect of the shared term loop: with a step that ignores
every id at or beyond the loaded vocabulary size, the produced score
dictionary is the pure fold that skips unknown terms, regardless of the
auto-create growth of the map. -/
lemma taatLoop_fst_eq (step : List (Nat × ℚ) → Nat → List (Nat × ℚ))
    (orig : List String)
    (hstep : ∀ sc tid, orig.length ≤ tid → step sc tid = sc) :
    ∀ (terms : List String) (extra : List String) (sc : List (Nat × ℚ)),
      (taatLoop step terms ⟨orig ++ extra⟩ sc).1 =
        terms.foldl (fun sc term =>
          match strIndex orig term with
          | none => sc
          | some i => step sc i) sc := by
  intro terms
  induction terms with
  | nil => intro extra sc; rfl
  | cons term rest ih =>
    intro extra sc
    show (taatLoop step (term :: rest) ⟨orig ++ extra⟩ sc).1 = _
    rw [taatLoop]
    rcases horig : strIndex orig term with _ | i
    · rcases hfull : strIndex (orig ++ extra) term with _ | j
      · have hassign : IdMap.getOrAssign ⟨orig ++ extra⟩ term =
            ((orig ++ extra).length, ⟨(orig ++ extra) ++ [term]⟩) := by
          unfold IdMap.getOrAssign
          rw [hfull]
        rw [hassign]
        have hnoop : step sc (orig ++ extra).length = sc :=
          hstep sc _ (by simp)
        simp only [hnoop]
        rw [show ((orig ++ extra) ++ [term]) = orig ++ (extra ++ [term]) from
          List.append_assoc orig extra [term]]
        rw [ih (extra ++ [term]) sc]
        simp [horig]
      · have hassign : IdMap.getOrAssign ⟨orig ++ extra⟩ term = (j, ⟨orig ++ extra⟩) := by
          unfold IdMap.getOrAssign
          rw [hfull]
        rw [hassign]
        have hge : orig.length ≤ j := strIndex_append_ge horig hfull
        have hnoop : step sc j = sc := hstep sc j hge
        simp only [hnoop]
        rw [ih extra sc]
        simp [horig]
    · have hfull : strIndex (orig ++ extra) term = some i :=
        strIndex_append_some horig extra
      have hassign : IdMap.getOrAssign ⟨orig ++ extra⟩ term = (i, ⟨orig ++ extra⟩) := by
        unfold IdMap.getOrAssign
        rw [hfull]
      rw [hassign]
      rw [ih extra (step sc i)]
      simp [horig]

/-- The loop does not touch the map when every term is already known. -/
lemma taatLoop_snd_const (step : List (Nat × ℚ) → Nat → List (Nat × ℚ)) :
    ∀ (terms : List String) (m : IdMap) (sc : List (Nat × ℚ)),
      (∀ t ∈ terms, t ∈ m.strs) → (taatLoop step terms m sc).2 = m := by
  intro terms
  induction terms with
  | nil => intro m sc _; rfl
  | cons term rest ih =>
    intro m sc h
    have hmem : term ∈ m.strs := h term (by simp)
    have hsome : (strIndex m.strs term).isSome :=
      (strIndex_isSome_iff_mem m.strs term).mpr hmem
    rcases hidx : strIndex m.strs term with _ | i
    · rw [hidx] at hsome; simp at hsome
    · rw [taatLoop]
      have hassign : IdMap.getOrAssign m term = (i, m) := by
        unfold IdMap.getOrAssign
        rw [hidx]
      rw [hassign]
      exact ih m (step sc i) fun t ht => h t (by simp [ht])

/-- Out-of-vocabulary ids produce the empty postings pair. -/
lemma get_postings_list_oov (idx : InvIndex) (bnd : Nat)
    (hWF : ∀ e ∈ idx.entries, e.1 < bnd) (tid : Nat) (hge : bnd ≤ tid) :
    idx.get_postings_list tid = ([], []) := by
  unfold InvIndex.get_postings_list
  have : idx.entries.find? (fun e => e.1 == tid) = none := by
    rw [List.find?_eq_none]
    intro e he
    have := hWF e he
    simp only [beq_iff_eq]
    omega
  rw [this]

lemma tfidfStep_oov (lg : ℚ → ℚ) (idx : InvIndex) (N : Nat) (bnd : Nat)
    (hWF : ∀ e ∈ idx.entries, e.1 < bnd) :
    ∀ sc tid, bnd ≤ tid → tfidfStep lg idx N sc tid = sc := by
  intro sc tid hge
  unfold tfidfStep
  rw [get_postings_list_oov idx bnd hWF tid hge]
  simp

lemma bm25Step_oov (lg : ℚ → ℚ) (idx : InvIndex) (N : Nat) (bnd : Nat)
    (hWF : ∀ e ∈ idx.entries, e.1 < bnd) :
    ∀ sc tid, bnd ≤ tid → bm25Step lg idx N sc tid = sc := by
  intro sc tid hge
  unfold bm25Step
  rw [get_postings_list_oov idx bnd hWF tid hge]
  simp

/-- With every stored tf at least 1, the BM25 step coincides with the
TF-IDF step (the guard is always taken and the product commutes). -/
lemma bm25Step_eq_tfidfStep (lg : ℚ → ℚ) (idx : InvIndex) (N : Nat)
    (htf : ∀ e ∈ idx.entries, ∀ tf ∈ e.2.2, 1 ≤ tf) :
    bm25Step lg idx N = tfidfStep lg idx N := by
  funext sc tid
  unfold bm25Step tfidfStep
  rcases hfind : idx.entries.find? (fun e => e.1 == tid) with _ | e
  · simp [InvIndex.get_postings_list, hfind]
  · have hmem : e ∈ idx.entries := List.mem_of_find?_eq_some hfind
    simp only [InvIndex.get_postings_list, hfind]
    by_cases hdf : 0 < e.2.1.length
    · simp only [if_pos hdf]
      refine foldl_congr_mem _ sc fun b dt hdt => ?_
      have htf1 : 1 ≤ dt.2 := htf e hmem dt.2 (List.of_mem_zip hdt).2
      have hpos : 0 < dt.2 := htf1
      simp only [if_pos hpos]
      ring_nf
    · simp only [if_neg hdf]

end BSBIIndex

namespace BSBIIndex

lemma specFold_oov (orig : List String) (step : List (Nat × ℚ) → Nat → List (Nat × ℚ)) :
    ∀ (terms : List String) (sc : List (Nat × ℚ)),
      (∀ t ∈ terms, strIndex orig t = none) →
      terms.foldl (fun sc term =>
        match strIndex orig term with
        | none => sc
        | some i => step sc i) sc = sc := by
  intro terms
  induction terms with
  | nil => intro sc _; rfl
  | cons t rest ih =>
    intro sc h
    simp only [List.foldl_cons]
    rw [h t (by simp)]
    exact ih sc fun u hu => h u (by simp [hu])

lemma specFold_filter (orig : List String)
    (step : List (Nat × ℚ) → Nat → List (Nat × ℚ)) :
    ∀ (terms : List String) (sc : List (Nat × ℚ)),
      (terms.filter fun t => (strIndex orig t).isSome).foldl
        (fun sc term =>
          match strIndex orig term with
          | none => sc
          | some i => step sc i) sc =
      terms.foldl (fun sc term =>
        match strIndex orig term with
        | none => sc
        | some i => step sc i) sc := by
  intro terms
  induction terms with
  | nil => intro sc; rfl
  | cons t rest ih =>
    intro sc
    rcases h : strIndex orig t with _ | i
    · rw [List.filter_cons_of_neg (by simp [h])]
      simp only [List.foldl_cons]
      rw [h]
      exact ih sc
    · rw [List.filter_cons_of_pos (by simp [h])]
      simp only [List.foldl_cons]
      rw [h]
      exact ih (step sc i)

/-- `retrieve_tfidf` computes, in its first component, exactly the
specification-side scorer, provided the loaded index only stores term
ids of the loaded vocabulary. -/
lemma retrieve_tfidf_fst_eq_spec (lg : ℚ → ℚ) (normalize : String → List String)
    (st : BSBIState) (query : String) (k : Nat)
    (hWF : ∀ e ∈ st.index.entries, e.1 < st.term_id_map.strs.length) :
    (retrieve_tfidf lg normalize st query k).1 =
      retrieve_tfidf_spec lg normalize st query k := by
  have hloop := taatLoop_fst_eq (tfidfStep lg st.index st.index.docLength.length)
    st.term_id_map.strs
    (tfidfStep_oov lg st.index st.index.docLength.length st.term_id_map.strs.length hWF)
    (normalize query) [] []
  rw [List.append_nil] at hloop
  show rankTopK st.doc_id_map
      (taatLoop (tfidfStep lg st.index st.index.docLength.length)
        (normalize query) st.term_id_map []).1 k = _
  have hm : (⟨st.term_id_map.strs⟩ : IdMap) = st.term_id_map := rfl
  rw [hm] at hloop
  rw [hloop]
  rfl

lemma retrieve_bm25_fst_eq_fold (lg : ℚ → ℚ) (normalize : String → List String)
    (st : BSBIState) (query : String) (k : Nat) (k1 b : ℚ)
    (hWF : ∀ e ∈ st.index.entries, e.1 < st.term_id_map.strs.length) :
    (retrieve_bm25 lg normalize st query k k1 b).1 =
      rankTopK st.doc_id_map
        ((normalize query).foldl (fun sc term =>
          match strIndex st.term_id_map.strs term with
          | none => sc
          | some i => bm25Step lg st.index st.index.docLength.length sc i) []) k := by
  have hloop := taatLoop_fst_eq (bm25Step lg st.index st.index.docLength.length)
    st.term_id_map.strs
    (bm25Step_oov lg st.index st.index.docLength.length st.term_id_map.strs.length hWF)
    (normalize query) [] []
  rw [List.append_nil] at hloop
  show rankTopK st.doc_id_map
      (taatLoop (bm25Step lg st.index st.index.docLength.length)
        (normalize query) st.term_id_map []).1 k = _
  have hm : (⟨st.term_id_map.strs⟩ : IdMap) = st.term_id_map := rfl
  rw [hm] at hloop
  rw [hloop]

lemma retrieve_tfidf_fst_eq_fold (lg : ℚ → ℚ) (normalize : String → List String)
    (st : BSBIState) (query : String) (k : Nat)
    (hWF : ∀ e ∈ st.index.entries, e.1 < st.term_id_map.strs.length) :
    (retrieve_tfidf lg normalize st query k).1 =
      rankTopK st.doc_id_map
        ((normalize query).foldl (fun sc term =>
          match strIndex st.term_id_map.strs term with
          | none => sc
          | some i => tfidfStep lg st.index st.index.docLength.length sc i) []) k := by
  have hloop := taatLoop_fst_eq (tfidfStep lg st.index st.index.docLength.length)
    st.term_id_map.strs
    (tfidfStep_oov lg st.index st.index.docLength.length st.term_id_map.strs.length hWF)
    (normalize query) [] []
  rw [List.append_nil] at hloop
  show rankTopK st.doc_id_map
      (taatLoop (tfidfStep lg st.index st.index.docLength.length)
        (normalize query) st.term_id_map []).1 k = _
  have hm : (⟨st.term_id_map.strs⟩ : IdMap) = st.term_id_map := rfl
  rw [hm] at hloop
  rw [hloop]

lemma rankTopK_nil (m : IdMap) (k : Nat) : rankTopK m [] k = [] := by
  simp [rankTopK, insSortBy]

/-- Full equality of the two retrieval functions under the stored-tf
precondition: same scores, same ranking, same state. -/
lemma retrieve_bm25_eq_retrieve_tfidf (lg : ℚ → ℚ) (normalize : String → List String)
    (st : BSBIState) (query : String) (k : Nat) (k1 b : ℚ)
    (htf : ∀ e ∈ st.index.entries, ∀ tf ∈ e.2.2, 1 ≤ tf) :
    retrieve_bm25 lg normalize st query k k1 b = retrieve_tfidf lg normalize st query k := by
  show (rankTopK st.doc_id_map
      (taatLoop (bm25Step lg st.index st.index.docLength.length)
        (normalize query) st.term_id_map []).1 k,
    { st with term_id_map :=
      (taatLoop (bm25Step lg st.index st.index.docLength.length)
        (normalize query) st.term_id_map []).2 }) =
    (rankTopK st.doc_id_map
      (taatLoop (tfidfStep lg st.index st.index.docLength.length)
        (normalize query) st.term_id_map []).1 k,
    { st with term_id_map :=
      (taatLoop (tfidfStep lg st.index st.index.docLength.length)
        (normalize query) st.term_id_map []).2 })
  rw [bm25Step_eq_tfidfStep lg st.index st.index.docLength.length htf]

lemma retrieve_tfidf_snd_const (lg : ℚ → ℚ) (normalize : String → List String)
    (st : BSBIState) (query : String) (k : Nat)
    (hknown : ∀ t ∈ normalize query, t ∈ st.term_id_map.strs) :
    (retrieve_tfidf lg normalize st query k).2 = st := by
  show { st with term_id_map :=
    (taatLoop (tfidfStep lg st.index st.index.docLength.length)
      (normalize query) st.term_id_map []).2 } = st
  rw [taatLoop_snd_const _ _ _ _ hknown]

lemma retrieve_bm25_snd_const (lg : ℚ → ℚ) (normalize : String → List String)
    (st : BSBIState) (query : String) (k : Nat) (k1 b : ℚ)
    (hknown : ∀ t ∈ normalize query, t ∈ st.term_id_map.strs) :
    (retrieve_bm25 lg normalize st query k k1 b).2 = st := by
  show { st with term_id_map :=
    (taatLoop (bm25Step lg st.index st.index.docLength.length)
      (normalize query) st.term_id_map []).2 } = st
  rw [taatLoop_snd_const _ _ _ _ hknown]

/-- Both retrieval functions return the empty list on an all-out-of-
vocabulary (or empty) preprocessed query. -/
lemma retrieve_oov_empty (lg : ℚ → ℚ) (normalize : String → List String)
    (st : BSBIState) (query : String) (k : Nat) (k1 b : ℚ)
    (hWF : ∀ e ∈ st.index.entries, e.1 < st.term_id_map.strs.length)
    (hoov : ∀ t ∈ normalize query, strIndex st.term_id_map.strs t = none) :
    (retrieve_tfidf lg normalize st query k).1 = [] ∧
      (retrieve_bm25 lg normalize st query k k1 b).1 = [] := by
  constructor
  · rw [retrieve_tfidf_fst_eq_fold lg normalize st query k hWF]
    rw [specFold_oov st.term_id_map.strs _ (normalize query) [] hoov]
    exact rankTopK_nil st.doc_id_map k
  · rw [retrieve_bm25_fst_eq_fold lg normalize st query k k1 b hWF]
    rw [specFold_oov st.term_id_map.strs _ (normalize query) [] hoov]
    exact rankTopK_nil st.doc_id_map k

/-- Dropping the out-of-vocabulary terms from the preprocessed query
changes neither result: an unknown term contributes nothing. -/
lemma retrieve_filter_oov (lg : ℚ → ℚ) (nm nm2 : String → List String)
    (st : BSBIState) (query : String) (k : Nat) (k1 b : ℚ)
    (hWF : ∀ e ∈ st.index.entries, e.1 < st.term_id_map.strs.length)
    (hfilter : nm2 query = (nm query).filter fun t =>
      (strIndex st.term_id_map.strs t).isSome) :
    (retrieve_tfidf lg nm2 st query k).1 = (retrieve_tfidf lg nm st query k).1 ∧
      (retrieve_bm25 lg nm2 st query k k1 b).1 = (retrieve_bm25 lg nm st query k k1 b).1 := by
  constructor
  · rw [retrieve_tfidf_fst_eq_fold lg nm2 st query k hWF,
      retrieve_tfidf_fst_eq_fold lg nm st query k hWF]
    rw [hfilter]
    rw [specFold_filter st.term_id_map.strs
      (tfidfStep lg st.index st.index.docLength.length) (nm query) []]
  · rw [retrieve_bm25_fst_eq_fold lg nm2 st query k k1 b hWF,
      retrieve_bm25_fst_eq_fold lg nm st query k k1 b hWF]
    rw [hfilter]
    rw [specFold_filter st.term_id_map.strs
      (bm25Step lg st.index st.index.docLength.length) (nm query) []]

end BSBIIndex

/-! ### Insertion-sort and association-list lemmas -/

lemma mem_insertBy {le : α → α → Bool} {x z : α} :
    ∀ {l : List α}, z ∈ insertBy le x l → z = x ∨ z ∈ l := by
  intro l
  induction l with
  | nil => intro h; simpa [insertBy] using h
  | cons y ys ih =>
    intro h
    unfold insertBy at h
    by_cases hc : le x y
    · rw [if_pos hc] at h
      rcases List.mem_cons.mp h with rfl | h2
      · exact Or.inl rfl
      · exact Or.inr h2
    · rw [if_neg hc] at h
      rcases List.mem_cons.mp h with rfl | h2
      · exact Or.inr (by simp)
      · rcases ih h2 with h3 | h3
        · exact Or.inl h3
        · exact Or.inr (by simp [h3])

lemma insertBy_perm (le : α → α → Bool) (x : α) :
    ∀ l : List α, List.Perm (insertBy le x l) (x :: l) := by
  intro l
  induction l with
  | nil => simp [insertBy]
  | cons y ys ih =>
    unfold insertBy
    by_cases hc : le x y
    · rw [if_pos hc]
    · rw [if_neg hc]
      exact List.Perm.trans (List.Perm.cons y ih) (List.Perm.swap x y ys)

lemma insSortBy_perm (le : α → α → Bool) : ∀ l : List α, List.Perm (insSortBy le l) l := by
  intro l
  induction l with
  | nil => simp [insSortBy]
  | cons x xs ih =>
    unfold insSortBy
    exact List.Perm.trans (insertBy_perm le x _) (List.Perm.cons x ih)

lemma insertNat_pairwise (x : Nat) :
    ∀ l : List Nat, l.Pairwise (· ≤ ·) →
      (insertBy (fun a b => decide (a ≤ b)) x l).Pairwise (· ≤ ·) := by
  intro l
  induction l with
  | nil => intro _; simp [insertBy]
  | cons y ys ih =>
    intro hp
    rw [List.pairwise_cons] at hp
    unfold insertBy
    by_cases hc : x ≤ y
    · rw [if_pos (by simpa using hc)]
      rw [List.pairwise_cons]
      constructor
      · intro z hz
        rcases List.mem_cons.mp hz with rfl | h2
        · exact hc
        · exact le_trans hc (hp.1 z h2)
      · rw [List.pairwise_cons]
        exact hp
    · rw [if_neg (by simpa using hc)]
      rw [List.pairwise_cons]
      constructor
      · intro z hz
        rcases mem_insertBy hz with rfl | h2
        · omega
        · exact hp.1 z h2
      · exact ih hp.2

lemma insSortNat_pairwise :
    ∀ l : List Nat, (insSortBy (fun a b => decide (a ≤ b)) l).Pairwise (· ≤ ·) := by
  intro l
  induction l with
  | nil => simp [insSortBy]
  | cons x xs ih => exact insertNat_pairwise x _ ih

lemma insSortNat_pairwise_lt (l : List Nat) (hnd : l.Nodup) :
    (insSortBy (fun a b => decide (a ≤ b)) l).Pairwise (· < ·) := by
  have hperm := insSortBy_perm (fun a b => decide (a ≤ b)) l
  have hnd2 : (insSortBy (fun a b => decide (a ≤ b)) l).Nodup :=
    (hperm.nodup_iff).mpr hnd
  have hle := insSortNat_pairwise l
  exact (hle.and hnd2).imp fun h => lt_of_le_of_ne h.1 h.2

lemma alistGetD_set_self {α : Type} (m : List (Nat × α)) (k : Nat) (v : α) (d : α) :
    alistGetD (alistSet m k v) k d = v := by
  induction m with
  | nil => simp [alistSet, alistGetD, List.find?]
  | cons e rest ih =>
    by_cases he : e.1 = k
    · simp [alistSet, he, alistGetD, List.find?]
    · simp only [alistSet, if_neg he]
      simp only [alistGetD, List.find?]
      rw [show (e.1 == k) = false from by simpa using he]
      exact ih

lemma alistGetD_set_other {α : Type} (m : List (Nat × α)) (k k' : Nat) (v : α) (d : α)
    (h : k' ≠ k) : alistGetD (alistSet m k v) k' d = alistGetD m k' d := by
  induction m with
  | nil =>
    simp only [alistSet, alistGetD, List.find?]
    rw [show (k == k') = false from by simpa using fun he => h he.symm]
  | cons e rest ih =>
    by_cases he : e.1 = k
    · simp only [alistSet, if_pos he, alistGetD, List.find?]
      rw [show (k == k') = false from by simpa using fun hx => h hx.symm]
      rw [show (e.1 == k') = false from by simpa using by omega]
    · simp only [alistSet, if_neg he, alistGetD, List.find?]
      by_cases he2 : e.1 = k'
      · rw [show (e.1 == k') = true from by simpa using he2]
      · rw [show (e.1 == k') = false from by simpa using he2]
        exact ih

lemma alistSet_keys_mem {α : Type} (m : List (Nat × α)) (k : Nat) (v : α) (k' : Nat) :
    k' ∈ (alistSet m k v).map Prod.fst ↔ k' = k ∨ k' ∈ m.map Prod.fst := by
  induction m with
  | nil => simp [alistSet]
  | cons e rest ih =>
    by_cases he : e.1 = k
    · simp only [alistSet, if_pos he, List.map_cons, List.mem_cons]
      rw [← he]
      tauto
    · simp only [alistSet, if_neg he, List.map_cons, List.mem_cons]
      rw [ih]
      tauto

lemma alistSet_keys_nodup {α : Type} (m : List (Nat × α)) (k : Nat) (v : α)
    (h : (m.map Prod.fst).Nodup) : ((alistSet m k v).map Prod.fst).Nodup := by
  induction m with
  | nil => simp [alistSet]
  | cons e rest ih =>
    rw [List.map_cons, List.nodup_cons] at h
    by_cases he : e.1 = k
    · simp only [alistSet, if_pos he, List.map_cons, List.nodup_cons]
      rw [← he]
      exact h
    · simp only [alistSet, if_neg he, List.map_cons, List.nodup_cons]
      constructor
      · intro hmem
        rcases (alistSet_keys_mem rest k v e.1).mp hmem with h2 | h2
        · exact he h2
        · exact h.1 h2
      · exact ih h.2

lemma alistGetD_not_mem {α : Type} (m : List (Nat × α)) (k : Nat) (d : α)
    (h : k ∉ m.map Prod.fst) : alistGetD m k d = d := by
  unfold alistGetD
  rw [List.find?_eq_none.mpr]
  intro e he
  simp only [beq_iff_eq]
  intro hek
  exact h (by simpa [hek] using List.mem_map_of_mem Prod.fst he)

/-! ### Block inversion (`write_to_index`) lemmas -/

namespace BSBIIndex

/-- Number of occurrences of the pair `(t, d)` in the parsed block. -/
def tdCount (t d : Nat) : List (Nat × Nat) → Nat
  | [] => 0
  | td :: rest => (if td = (t, d) then 1 else 0) + tdCount t d rest

lemma tdCount_pos {t d : Nat} :
    ∀ {tds : List (Nat × Nat)}, (t, d) ∈ tds → 1 ≤ tdCount t d tds := by
  intro tds
  induction tds with
  | nil => intro h; simp at h
  | cons td rest ih =>
    intro h
    unfold tdCount
    rcases List.mem_cons.mp h with rfl | h2
    · simp
    · have := ih h2
      omega

/-- Reading `term_dict[t].get(d, 0)` in the nested dictionary. -/
def innerGet (m : List (Nat × List (Nat × Nat))) (t d : Nat) : Nat :=
  alistGetD (alistGetD m t []) d 0

lemma innerGet_tdStep (m : List (Nat × List (Nat × Nat))) (td : Nat × Nat) (t d : Nat) :
    innerGet (tdStep m td) t d = innerGet m t d + (if td = (t, d) then 1 else 0) := by
  obtain ⟨t0, d0⟩ := td
  unfold innerGet tdStep
  by_cases ht : t = t0
  · subst ht
    rw [alistGetD_set_self]
    by_cases hd : d = d0
    · subst hd
      rw [alistGetD_set_self]
      simp
    · rw [alistGetD_set_other _ _ _ _ _ hd]
      rw [if_neg (by simp [Prod.mk.injEq]; omega)]
      simp
  · rw [alistGetD_set_other _ _ _ _ _ ht]
    rw [if_neg (by simp [Prod.mk.injEq]; omega)]
    simp

lemma innerGet_fold (tds : List (Nat × Nat)) :
    ∀ (m : List (Nat × List (Nat × Nat))) (t d : Nat),
      innerGet (tds.foldl tdStep m) t d = innerGet m t d + tdCount t d tds := by
  induction tds with
  | nil => intro m t d; simp [tdCount]
  | cons td rest ih =>
    intro m t d
    rw [List.foldl_cons, ih (tdStep m td) t d, innerGet_tdStep]
    simp only [tdCount]
    omega

lemma keys_fold_mem (tds : List (Nat × Nat)) :
    ∀ (m : List (Nat × List (Nat × Nat))) (t : Nat),
      t ∈ (tds.foldl tdStep m).map Prod.fst ↔
        t ∈ m.map Prod.fst ∨ t ∈ tds.map Prod.fst := by
  induction tds with
  | nil => intro m t; simp
  | cons td rest ih =>
    intro m t
    rw [List.foldl_cons, ih (tdStep m td) t]
    unfold tdStep
    rw [alistSet_keys_mem]
    simp only [List.map_cons, List.mem_cons]
    tauto

lemma keys_fold_nodup (tds : List (Nat × Nat)) :
    ∀ (m : List (Nat × List (Nat × Nat))), (m.map Prod.fst).Nodup →
      ((tds.foldl tdStep m).map Prod.fst).Nodup := by
  induction tds with
  | nil => intro m h; simpa using h
  | cons td rest ih =>
    intro m h
    rw [List.foldl_cons]
    exact ih (tdStep m td) (alistSet_keys_nodup _ _ _ h)

lemma innerKeys_tdStep_mem (m : List (Nat × List (Nat × Nat))) (td : Nat × Nat)
    (t d : Nat) :
    d ∈ (alistGetD (tdStep m td) t []).map Prod.fst ↔
      td = (t, d) ∨ d ∈ (alistGetD m t []).map Prod.fst := by
  obtain ⟨t0, d0⟩ := td
  unfold tdStep
  by_cases ht : t = t0
  · subst ht
    rw [alistGetD_set_self]
    rw [alistSet_keys_mem]
    constructor
    · rintro (h | h)
      · exact Or.inl (by rw [h])
      · exact Or.inr h
    · rintro (h | h)
      · exact Or.inl (congrArg Prod.snd h).symm
      · exact Or.inr h
  · rw [alistGetD_set_other _ _ _ _ _ ht]
    constructor
    · exact Or.inr
    · rintro (h | h)
      · exact absurd (congrArg Prod.fst h).symm ht
      · exact h

lemma innerKeys_fold_mem (tds : List (Nat × Nat)) :
    ∀ (m : List (Nat × List (Nat × Nat))) (t d : Nat),
      d ∈ (alistGetD (tds.foldl tdStep m) t []).map Prod.fst ↔
        (t, d) ∈ tds ∨ d ∈ (alistGetD m t []).map Prod.fst := by
  induction tds with
  | nil => intro m t d; simp
  | cons td rest ih =>
    intro m t d
    rw [List.foldl_cons, ih (tdStep m td) t d, innerKeys_tdStep_mem]
    simp only [List.mem_cons]
    constructor
    · rintro (h | h | h)
      · exact Or.inl (Or.inr h)
      · exact Or.inl (Or.inl h.symm)
      · exact Or.inr h
    · rintro ((h | h) | h)
      · exact Or.inr (Or.inl h.symm)
      · exact Or.inl h
      · exact Or.inr (Or.inr h)

lemma innerKeys_tdStep_nodup (m : List (Nat × List (Nat × Nat))) (td : Nat × Nat)
    (h : ∀ t, ((alistGetD m t []).map Prod.fst).Nodup) :
    ∀ t, ((alistGetD (tdStep m td) t []).map Prod.fst).Nodup := by
  intro t
  obtain ⟨t0, d0⟩ := td
  unfold tdStep
  by_cases ht : t = t0
  · subst ht
    rw [alistGetD_set_self]
    exact alistSet_keys_nodup _ _ _ (h t)
  · rw [alistGetD_set_other _ _ _ _ _ ht]
    exact h t

lemma innerKeys_fold_nodup (tds : List (Nat × Nat)) :
    ∀ (m : List (Nat × List (Nat × Nat))),
      (∀ t, ((alistGetD m t []).map Prod.fst).Nodup) →
      ∀ t, ((alistGetD (tds.foldl tdStep m) t []).map Prod.fst).Nodup := by
  induction tds with
  | nil => intro m h; exact h
  | cons td rest ih =>
    intro m h
    rw [List.foldl_cons]
    exact ih (tdStep m td) (innerKeys_tdStep_nodup m td h)

/-- Full characterization of `write_to_index`: ascending duplicate-free
termIds covering exactly the input termIds; each entry has a strictly
ascending postings list containing exactly the docIds paired with that
term, and the co-indexed tf list holds the pair multiplicities, all
positive. -/
lemma write_to_index_spec (tds : List (Nat × Nat)) :
    ((write_to_index tds).map (fun e => e.1)).Pairwise (· < ·) ∧
    (∀ t, t ∈ (write_to_index tds).map (fun e => e.1) ↔ t ∈ tds.map Prod.fst) ∧
    ∀ e ∈ write_to_index tds,
      e.2.1.Pairwise (· < ·) ∧
      (∀ d, d ∈ e.2.1 ↔ (e.1, d) ∈ tds) ∧
      e.2.2 = e.2.1.map (fun d => tdCount e.1 d tds) ∧
      (∀ c ∈ e.2.2, 1 ≤ c) := by
  have hkeys_nodup : ((tds.foldl tdStep []).map Prod.fst).Nodup :=
    keys_fold_nodup tds [] (by simp)
  have hinner_nodup : ∀ t, ((alistGetD (tds.foldl tdStep []) t []).map Prod.fst).Nodup :=
    innerKeys_fold_nodup tds [] (by intro t; simp [alistGetD, List.find?])
  have hmapfst : (write_to_index tds).map (fun e => e.1)
      = insSortBy (fun a b => decide (a ≤ b)) ((tds.foldl tdStep []).map Prod.fst) := by
    unfold write_to_index
    rw [List.map_map]
    exact List.map_id'' (fun t => rfl) _
  refine ⟨?_, ?_, ?_⟩
  · rw [hmapfst]
    exact insSortNat_pairwise_lt _ hkeys_nodup
  · intro t
    rw [hmapfst]
    rw [(insSortBy_perm (fun a b => decide (a ≤ b)) _).mem_iff]
    rw [keys_fold_mem tds [] t]
    simp
  · intro e he
    unfold write_to_index at he
    rw [List.mem_map] at he
    obtain ⟨t, _, rfl⟩ := he
    refine ⟨?_, ?_, ?_, ?_⟩
    · exact insSortNat_pairwise_lt _ (hinner_nodup t)
    · intro d
      show d ∈ insSortBy (fun a b => decide (a ≤ b))
          ((alistGetD (tds.foldl tdStep []) t []).map Prod.fst) ↔ _
      rw [(insSortBy_perm (fun a b => decide (a ≤ b)) _).mem_iff]
      rw [innerKeys_fold_mem tds [] t d]
      simp [alistGetD, List.find?]
    · show (insSortBy (fun a b => decide (a ≤ b))
          ((alistGetD (tds.foldl tdStep []) t []).map Prod.fst)).map
          (fun d => alistGetD (alistGetD (tds.foldl tdStep []) t []) d 0) = _
      refine List.map_congr_left fun d _ => ?_
      show innerGet (tds.foldl tdStep []) t d = tdCount t d tds
      rw [innerGet_fold tds [] t d]
      simp [innerGet, alistGetD, List.find?]
    · intro c hc
      rw [List.mem_map] at hc
      obtain ⟨d, hd, rfl⟩ := hc
      have hdps : d ∈ insSortBy (fun a b => decide (a ≤ b))
          ((alistGetD (tds.foldl tdStep []) t []).map Prod.fst) := hd
      rw [(insSortBy_perm (fun a b => decide (a ≤ b)) _).mem_iff] at hdps
      rw [innerKeys_fold_mem tds [] t d] at hdps
      have hmem : (t, d) ∈ tds := by simpa [alistGetD, List.find?] using hdps
      show 1 ≤ alistGetD (alistGetD (tds.foldl tdStep []) t []) d 0
      have : innerGet (tds.foldl tdStep []) t d = tdCount t d tds := by
        rw [innerGet_fold tds [] t d]
        simp [innerGet, alistGetD, List.find?]
      rw [show alistGetD (alistGetD (tds.foldl tdStep []) t []) d 0
          = innerGet (tds.foldl tdStep []) t d from rfl, this]
      exact tdCount_pos hmem

end BSBIIndex

/-! ### External-merge lemmas -/

lemma pairwise_fst_zip {ps fs : List Nat} (h : ps.Pairwise (· < ·)) :
    (ps.zip fs).Pairwise (fun u v => u.1 < v.1) := by
  induction ps generalizing fs with
  | nil => simp
  | cons p ps ih =>
    cases fs with
    | nil => simp
    | cons f fs =>
      rw [List.pairwise_cons] at h
      rw [List.zip_cons_cons, List.pairwise_cons]
      constructor
      · intro z hz
        exact h.1 z.1 (List.of_mem_zip hz).1
      · exact ih h.2

lemma mastz_perm : ∀ (a b : List (Nat × Nat)),
    (∀ x ∈ a, ∀ y ∈ b, x.1 ≠ y.1) →
    List.Perm (merge_and_sort_posts_and_tfs a b) (a ++ b) := by
  intro a b
  induction a, b using merge_and_sort_posts_and_tfs.induct with
  | case1 ys => intro _; simp [merge_and_sort_posts_and_tfs]
  | case2 x xs => intro _; simp [merge_and_sort_posts_and_tfs]
  | case3 x xs y ys hlt ih =>
    intro hdisj
    rw [merge_and_sort_posts_and_tfs]
    rw [if_pos hlt]
    exact List.Perm.cons x (ih fun u hu v hv => hdisj u (by simp [hu]) v hv)
  | case4 x xs y ys hlt hgt ih =>
    intro hdisj
    rw [merge_and_sort_posts_and_tfs]
    rw [if_neg hlt, if_pos hgt]
    have hstep := ih fun u hu v hv => hdisj u hu v (by simp [hv])
    exact (List.Perm.cons y hstep).trans List.perm_middle.symm
  | case5 x xs y ys hlt hgt ih =>
    intro hdisj
    exact absurd (by omega : x.1 = y.1) (hdisj x (by simp) y (by simp))

lemma mastz_mem {a b : List (Nat × Nat)}
    (hdisj : ∀ x ∈ a, ∀ y ∈ b, x.1 ≠ y.1) {z : Nat × Nat}
    (hz : z ∈ merge_and_sort_posts_and_tfs a b) : z ∈ a ∨ z ∈ b := by
  have := (mastz_perm a b hdisj).mem_iff.mp hz
  simpa using this

lemma mastz_sorted : ∀ (a b : List (Nat × Nat)),
    a.Pairwise (fun u v => u.1 < v.1) → b.Pairwise (fun u v => u.1 < v.1) →
    (∀ x ∈ a, ∀ y ∈ b, x.1 ≠ y.1) →
    (merge_and_sort_posts_and_tfs a b).Pairwise (fun u v => u.1 < v.1) := by
  intro a b
  induction a, b using merge_and_sort_posts_and_tfs.induct with
  | case1 ys => intro _ hb _; simpa [merge_and_sort_posts_and_tfs] using hb
  | case2 x xs => intro ha _ _; simpa [merge_and_sort_posts_and_tfs] using ha
  | case3 x xs y ys hlt ih =>
    intro ha hb hdisj
    rw [List.pairwise_cons] at ha
    have hdisj2 : ∀ u ∈ xs, ∀ v ∈ y :: ys, u.1 ≠ v.1 :=
      fun u hu v hv => hdisj u (by simp [hu]) v hv
    rw [merge_and_sort_posts_and_tfs, if_pos hlt, List.pairwise_cons]
    constructor
    · intro z hz
      rcases mastz_mem hdisj2 hz with h | h
      · exact ha.1 z h
      · rcases List.mem_cons.mp h with rfl | h2
        · exact hlt
        · rw [List.pairwise_cons] at hb
          exact lt_trans hlt (hb.1 z h2)
    · exact ih ha.2 hb hdisj2
  | case4 x xs y ys hlt hgt ih =>
    intro ha hb hdisj
    rw [List.pairwise_cons] at hb
    have hdisj2 : ∀ u ∈ x :: xs, ∀ v ∈ ys, u.1 ≠ v.1 :=
      fun u hu v hv => hdisj u hu v (by simp [hv])
    rw [merge_and_sort_posts_and_tfs, if_neg hlt, if_pos hgt, List.pairwise_cons]
    constructor
    · intro z hz
      rcases mastz_mem hdisj2 hz with h | h
      · rcases List.mem_cons.mp h with rfl | h2
        · exact hgt
        · rw [List.pairwise_cons] at ha
          exact lt_trans hgt (ha.1 z h2)
      · exact hb.1 z h
    · exact ih ha hb.2 hdisj2
  | case5 x xs y ys hlt hgt ih =>
    intro _ _ hdisj
    exact absurd (by omega : x.1 = y.1) (hdisj x (by simp) y (by simp))

lemma pyMerge2_nil_right : ∀ xs : List IdxTriple, pyMerge2 xs [] = xs
  | [] => by rw [pyMerge2]
  | _ :: _ => by rw [pyMerge2]

lemma pyMerge2_cons_gt (y : IdxTriple) (ys : List IdxTriple) :
    ∀ xs : List IdxTriple, (∀ e ∈ xs, y.1 < e.1) →
      pyMerge2 xs (y :: ys) = y :: pyMerge2 xs ys
  | [], _ => by rw [pyMerge2, pyMerge2]
  | x :: xs, h => by
    rw [pyMerge2]
    rw [if_neg (by have := h x (by simp); omega)]

lemma mergeLoop_flush (acc : IdxTriple) :
    ∀ zs : List IdxTriple, (acc :: zs).Pairwise (fun a b => a.1 < b.1) →
      mergeLoop acc zs = acc :: zs := by
  intro zs
  induction zs generalizing acc with
  | nil => intro _; rfl
  | cons z zs ih =>
    intro h
    rw [List.pairwise_cons] at h
    rw [mergeLoop]
    rw [if_neg (by have := h.1 z (by simp); omega)]
    rw [ih z h.2]

lemma mergeLoop_pyMerge2 (n : Nat) :
    ∀ (xs ys : List IdxTriple) (acc : IdxTriple),
      xs.length + ys.length ≤ n →
      xs.Pairwise (fun a b => a.1 < b.1) →
      ys.Pairwise (fun a b => a.1 < b.1) →
      (∀ e ∈ xs, acc.1 < e.1) →
      (∀ e ∈ ys, acc.1 < e.1) →
      mergeLoop acc (pyMerge2 xs ys) = acc :: mergeTwo xs ys := by
  induction n with
  | zero =>
    intro xs ys acc hlen _ _ _ _
    have hx : xs = [] := List.length_eq_zero.mp (by omega)
    have hy : ys = [] := List.length_eq_zero.mp (by omega)
    subst hx
    subst hy
    rw [show pyMerge2 ([] : List IdxTriple) [] = [] from by rw [pyMerge2]]
    rw [show mergeTwo ([] : List IdxTriple) [] = [] from by rw [mergeTwo]]
    rfl
  | succ n ih =>
    intro xs ys acc hlen hxs hys hax hay
    match xs, ys with
    | [], ys =>
      rw [show pyMerge2 [] ys = ys from by rw [pyMerge2]]
      rw [show mergeTwo [] ys = ys from by rw [mergeTwo]]
      refine mergeLoop_flush acc ys ?_
      rw [List.pairwise_cons]
      exact ⟨hay, hys⟩
    | x :: xs, [] =>
      rw [pyMerge2_nil_right]
      rw [show mergeTwo (x :: xs) [] = x :: xs from by rw [mergeTwo]]
      refine mergeLoop_flush acc (x :: xs) ?_
      rw [List.pairwise_cons]
      exact ⟨hax, hxs⟩
    | x :: xs, y :: ys =>
      rw [List.pairwise_cons] at hxs hys
      simp only [List.length_cons] at hlen
      rcases lt_trichotomy x.1 y.1 with hlt | heq | hgt
      · rw [pyMerge2, if_pos (by omega)]
        rw [mergeLoop, if_neg (by have := hax x (by simp); omega)]
        rw [ih xs (y :: ys) x (by simp; omega) hxs.2 (by
            rw [List.pairwise_cons]; exact hys) hxs.1 (by
          intro e he
          rcases List.mem_cons.mp he with rfl | h2
          · exact hlt
          · exact lt_trans hlt (hys.1 e h2))]
        rw [mergeTwo, if_pos hlt]
      · rw [pyMerge2, if_pos (by omega)]
        rw [mergeLoop, if_neg (by have := hax x (by simp); omega)]
        rw [pyMerge2_cons_gt y ys xs (by
          intro e he
          have := hxs.1 e he
          omega)]
        rw [mergeLoop, if_pos (by omega)]
        rw [ih xs ys (combineTriple x y) (by omega) hxs.2 hys.2
          (by
            intro e he
            exact hxs.1 e he)
          (by
            intro e he
            have := hys.1 e he
            show x.1 < e.1
            omega)]
        rw [mergeTwo, if_neg (by omega), if_neg (by omega)]
      · rw [pyMerge2, if_neg (by omega)]
        rw [mergeLoop, if_neg (by have := hay y (by simp); omega)]
        rw [ih (x :: xs) ys y (by simp; omega) (by
            rw [List.pairwise_cons]; exact hxs) hys.2 (by
          intro e he
          rcases List.mem_cons.mp he with rfl | h2
          · exact hgt
          · exact lt_trans hgt (hxs.1 e h2)) hys.1]
        rw [mergeTwo, if_neg (by omega), if_pos hgt]

lemma mergeTwo_key_mem : ∀ (xs ys : List IdxTriple) (e : IdxTriple),
    e ∈ mergeTwo xs ys → (∃ f ∈ xs, e.1 = f.1) ∨ (∃ f ∈ ys, e.1 = f.1) := by
  intro xs ys
  induction xs, ys using mergeTwo.induct with
  | case1 ys =>
    intro e he
    rw [mergeTwo] at he
    exact Or.inr ⟨e, he, rfl⟩
  | case2 x xs =>
    intro e he
    rw [mergeTwo] at he
    exact Or.inl ⟨e, he, rfl⟩
  | case3 x xs y ys hlt ih =>
    intro e he
    rw [mergeTwo, if_pos hlt] at he
    rcases List.mem_cons.mp he with rfl | h2
    · exact Or.inl ⟨e, by simp, rfl⟩
    · rcases ih e h2 with ⟨f, hf, hef⟩ | ⟨f, hf, hef⟩
      · exact Or.inl ⟨f, by simp [hf], hef⟩
      · exact Or.inr ⟨f, hf, hef⟩
  | case4 x xs y ys hlt hgt ih =>
    intro e he
    rw [mergeTwo, if_neg hlt, if_pos hgt] at he
    rcases List.mem_cons.mp he with rfl | h2
    · exact Or.inr ⟨e, by simp, rfl⟩
    · rcases ih e h2 with ⟨f, hf, hef⟩ | ⟨f, hf, hef⟩
      · exact Or.inl ⟨f, hf, hef⟩
      · exact Or.inr ⟨f, by simp [hf], hef⟩
  | case5 x xs y ys hlt hgt ih =>
    intro e he
    rw [mergeTwo, if_neg hlt, if_neg hgt] at he
    rcases List.mem_cons.mp he with rfl | h2
    · exact Or.inl ⟨x, by simp, rfl⟩
    · rcases ih e h2 with ⟨f, hf, hef⟩ | ⟨f, hf, hef⟩
      · exact Or.inl ⟨f, by simp [hf], hef⟩
      · exact Or.inr ⟨f, by simp [hf], hef⟩

lemma mergeTwo_keys_pairwise : ∀ (xs ys : List IdxTriple),
    xs.Pairwise (fun a b => a.1 < b.1) → ys.Pairwise (fun a b => a.1 < b.1) →
    (mergeTwo xs ys).Pairwise (fun a b => a.1 < b.1) := by
  intro xs ys
  induction xs, ys using mergeTwo.induct with
  | case1 ys =>
    intro _ hb
    rw [mergeTwo]
    exact hb
  | case2 x xs =>
    intro ha _
    rw [mergeTwo]
    exact ha
  | case3 x xs y ys hlt ih =>
    intro ha hb
    rw [List.pairwise_cons] at ha
    rw [mergeTwo, if_pos hlt, List.pairwise_cons]
    constructor
    · intro e he
      rcases mergeTwo_key_mem xs (y :: ys) e he with ⟨f, hf, hef⟩ | ⟨f, hf, hef⟩
      · have := ha.1 f hf
        omega
      · rcases List.mem_cons.mp hf with rfl | h2
        · omega
        · rw [List.pairwise_cons] at hb
          have := hb.1 f h2
          omega
    · exact ih ha.2 hb
  | case4 x xs y ys hlt hgt ih =>
    intro ha hb
    rw [List.pairwise_cons] at hb
    rw [mergeTwo, if_neg hlt, if_pos hgt, List.pairwise_cons]
    constructor
    · intro e he
      rcases mergeTwo_key_mem (x :: xs) ys e he with ⟨f, hf, hef⟩ | ⟨f, hf, hef⟩
      · rcases List.mem_cons.mp hf with rfl | h2
        · omega
        · rw [List.pairwise_cons] at ha
          have := ha.1 f h2
          omega
      · have := hb.1 f hf
        omega
    · exact ih ha hb.2
  | case5 x xs y ys hlt hgt ih =>
    intro ha hb
    rw [List.pairwise_cons] at ha hb
    rw [mergeTwo, if_neg hlt, if_neg hgt, List.pairwise_cons]
    constructor
    · intro e he
      rcases mergeTwo_key_mem xs ys e he with ⟨f, hf, hef⟩ | ⟨f, hf, hef⟩
      · have := ha.1 f hf
        show (combineTriple x y).1 < e.1
        simp only [combineTriple]
        omega
      · have := hb.1 f hf
        show (combineTriple x y).1 < e.1
        simp only [combineTriple]
        omega
    · exact ih ha.2 hb.2

lemma mergeTwo_key_iff : ∀ (xs ys : List IdxTriple) (t : Nat),
    (∃ e ∈ mergeTwo xs ys, e.1 = t) ↔
      (∃ e ∈ xs, e.1 = t) ∨ (∃ e ∈ ys, e.1 = t) := by
  intro xs ys
  induction xs, ys using mergeTwo.induct with
  | case1 ys =>
    intro t
    rw [mergeTwo]
    simp
  | case2 x xs =>
    intro t
    rw [mergeTwo]
    simp
  | case3 x xs y ys hlt ih =>
    intro t
    rw [mergeTwo, if_pos hlt]
    simp only [List.exists_mem_cons_iff, ih t]
    constructor
    · rintro (h | h | h)
      · exact Or.inl (Or.inl h)
      · exact Or.inl (Or.inr h)
      · exact Or.inr h
    · rintro ((h | h) | h)
      · exact Or.inl h
      · exact Or.inr (Or.inl h)
      · exact Or.inr (Or.inr h)
  | case4 x xs y ys hlt hgt ih =>
    intro t
    rw [mergeTwo, if_neg hlt, if_pos hgt]
    simp only [List.exists_mem_cons_iff, ih t]
    constructor
    · rintro (h | h | h)
      · exact Or.inr (Or.inl h)
      · exact Or.inl h
      · exact Or.inr (Or.inr h)
    · rintro (h | h | h)
      · exact Or.inr (Or.inl h)
      · exact Or.inl h
      · exact Or.inr (Or.inr h)
  | case5 x xs y ys hlt hgt ih =>
    intro t
    have hxy : x.1 = y.1 := by omega
    rw [mergeTwo, if_neg hlt, if_neg hgt]
    simp only [List.exists_mem_cons_iff, ih t]
    constructor
    · rintro (h | h | h)
      · exact Or.inl (Or.inl h)
      · exact Or.inl (Or.inr h)
      · exact Or.inr (Or.inr h)
    · rintro ((h | h) | (h | h))
      · exact Or.inl h
      · exact Or.inr (Or.inl h)
      · exact Or.inl (show (combineTriple x y).1 = t from by show x.1 = t; omega)
      · exact Or.inr (Or.inr h)

lemma key_ge_head {y : IdxTriple} {ys : List IdxTriple}
    (h : (y :: ys).Pairwise (fun a b => a.1 < b.1))
    {e : IdxTriple} (hm : e ∈ y :: ys) : y.1 ≤ e.1 := by
  rw [List.pairwise_cons] at h
  rcases List.mem_cons.mp hm with rfl | h2
  · exact le_refl _
  · exact le_of_lt (h.1 e h2)

lemma mergeTwo_both : ∀ (xs ys : List IdxTriple),
    xs.Pairwise (fun a b => a.1 < b.1) → ys.Pairwise (fun a b => a.1 < b.1) →
    ∀ (t : Nat) (p1 f1 p2 f2 : List Nat), (t, p1, f1) ∈ xs → (t, p2, f2) ∈ ys →
      combineTriple (t, p1, f1) (t, p2, f2) ∈ mergeTwo xs ys := by
  intro xs ys
  induction xs, ys using mergeTwo.induct with
  | case1 ys =>
    intro _ _ t p1 f1 p2 f2 hm1 _
    simp at hm1
  | case2 x xs =>
    intro _ _ t p1 f1 p2 f2 _ hm2
    simp at hm2
  | case3 x xs y ys hlt ih =>
    intro ha hb t p1 f1 p2 f2 hm1 hm2
    have hyt : y.1 ≤ t := key_ge_head hb hm2
    rcases List.mem_cons.mp hm1 with heq | h2
    · have : x.1 = t := by rw [← heq]
      omega
    · rw [mergeTwo, if_pos hlt]
      rw [List.pairwise_cons] at ha
      exact List.mem_cons_of_mem x (ih ha.2 hb t p1 f1 p2 f2 h2 hm2)
  | case4 x xs y ys hlt hgt ih =>
    intro ha hb t p1 f1 p2 f2 hm1 hm2
    have hxt : x.1 ≤ t := key_ge_head ha hm1
    rcases List.mem_cons.mp hm2 with heq | h2
    · have : y.1 = t := by rw [← heq]
      omega
    · rw [mergeTwo, if_neg hlt, if_pos hgt]
      rw [List.pairwise_cons] at hb
      exact List.mem_cons_of_mem y (ih ha hb.2 t p1 f1 p2 f2 hm1 h2)
  | case5 x xs y ys hlt hgt ih =>
    intro ha hb t p1 f1 p2 f2 hm1 hm2
    have hxy : x.1 = y.1 := by omega
    rw [mergeTwo, if_neg hlt, if_neg hgt]
    by_cases hxt : x.1 = t
    · have he1 : (t, p1, f1) = x := by
        rcases List.mem_cons.mp hm1 with heq | h2
        · exact heq
        · rw [List.pairwise_cons] at ha
          have := ha.1 (t, p1, f1) h2
          simp at this
          omega
      have he2 : (t, p2, f2) = y := by
        rcases List.mem_cons.mp hm2 with heq | h2
        · exact heq
        · rw [List.pairwise_cons] at hb
          have := hb.1 (t, p2, f2) h2
          simp at this
          omega
      rw [← he1, ← he2]
      exact List.mem_cons_self _ _
    · have h1 : (t, p1, f1) ∈ xs := by
        rcases List.mem_cons.mp hm1 with heq | h2
        · exact absurd (by rw [← heq]) hxt
        · exact h2
      have h2 : (t, p2, f2) ∈ ys := by
        rcases List.mem_cons.mp hm2 with heq | h2
        · have h3 := congrArg Prod.fst heq
          simp at h3
          exact absurd (by omega : x.1 = t) hxt
        · exact h2
      rw [List.pairwise_cons] at ha hb
      exact List.mem_cons_of_mem _ (ih ha.2 hb.2 t p1 f1 p2 f2 h1 h2)

lemma mergeTwo_left_only : ∀ (xs ys : List IdxTriple),
    ∀ e ∈ xs, (∀ f ∈ ys, f.1 ≠ e.1) → e ∈ mergeTwo xs ys := by
  intro xs ys
  induction xs, ys using mergeTwo.induct with
  | case1 ys =>
    intro e he _
    simp at he
  | case2 x xs =>
    intro e he _
    rw [mergeTwo]
    exact he
  | case3 x xs y ys hlt ih =>
    intro e he hne
    rw [mergeTwo, if_pos hlt]
    rcases List.mem_cons.mp he with rfl | h2
    · exact List.mem_cons_self _ _
    · exact List.mem_cons_of_mem x (ih e h2 hne)
  | case4 x xs y ys hlt hgt ih =>
    intro e he hne
    rw [mergeTwo, if_neg hlt, if_pos hgt]
    exact List.mem_cons_of_mem y
      (ih e he fun f hf => hne f (List.mem_cons_of_mem y hf))
  | case5 x xs y ys hlt hgt ih =>
    intro e he hne
    rw [mergeTwo, if_neg hlt, if_neg hgt]
    rcases List.mem_cons.mp he with rfl | h2
    · exact absurd (by omega : y.1 = e.1) (hne y (List.mem_cons_self _ _))
    · exact List.mem_cons_of_mem _
        (ih e h2 fun f hf => hne f (List.mem_cons_of_mem y hf))

lemma mergeTwo_right_only : ∀ (xs ys : List IdxTriple),
    ∀ e ∈ ys, (∀ f ∈ xs, f.1 ≠ e.1) → e ∈ mergeTwo xs ys := by
  intro xs ys
  induction xs, ys using mergeTwo.induct with
  | case1 ys =>
    intro e he _
    rw [mergeTwo]
    exact he
  | case2 x xs =>
    intro e he _
    simp at he
  | case3 x xs y ys hlt ih =>
    intro e he hne
    rw [mergeTwo, if_pos hlt]
    exact List.mem_cons_of_mem x
      (ih e he fun f hf => hne f (List.mem_cons_of_mem x hf))
  | case4 x xs y ys hlt hgt ih =>
    intro e he hne
    rw [mergeTwo, if_neg hlt, if_pos hgt]
    rcases List.mem_cons.mp he with rfl | h2
    · exact List.mem_cons_self _ _
    · exact List.mem_cons_of_mem y
        (ih e h2 fun f hf => hne f hf)
  | case5 x xs y ys hlt hgt ih =>
    intro e he hne
    rw [mergeTwo, if_neg hlt, if_neg hgt]
    rcases List.mem_cons.mp he with rfl | h2
    · exact absurd (by omega : x.1 = e.1) (hne x (List.mem_cons_self _ _))
    · exact List.mem_cons_of_mem _
        (ih e h2 fun f hf => hne f (List.mem_cons_of_mem x hf))

lemma heapqMerge_two (I1 I2 : List IdxTriple) :
    heapqMerge [I1, I2] = pyMerge2 I1 I2 := by
  show pyMerge2 I1 (pyMerge2 I2 []) = pyMerge2 I1 I2
  rw [pyMerge2_nil_right]

/-- With two ascending-key readers, `merge_index` succeeds and appends
exactly the direct two-index merge. -/
lemma merge_index_two (I1 I2 : List IdxTriple)
    (h1 : I1.Pairwise (fun a b => a.1 < b.1))
    (h2 : I2.Pairwise (fun a b => a.1 < b.1))
    (hne : I1 ≠ [] ∨ I2 ≠ []) :
    merge_index [I1, I2] = (mergeTwo I1 I2, true) := by
  match I1, I2 with
  | [], [] =>
    rcases hne with h | h
    · exact absurd rfl h
    · exact absurd rfl h
  | [], y :: ys =>
    show (match heapqMerge [[], y :: ys] with
      | [] => (([] : List IdxTriple), false)
      | first :: rest => (mergeLoop first rest, true)) = _
    rw [heapqMerge_two, show pyMerge2 [] (y :: ys) = y :: ys from by rw [pyMerge2]]
    show (mergeLoop y ys, true) = _
    rw [mergeLoop_flush y ys h2]
    rw [show mergeTwo [] (y :: ys) = y :: ys from by rw [mergeTwo]]
  | x :: xs, [] =>
    show (match heapqMerge [x :: xs, []] with
      | [] => (([] : List IdxTriple), false)
      | first :: rest => (mergeLoop first rest, true)) = _
    rw [heapqMerge_two, pyMerge2_nil_right]
    show (mergeLoop x xs, true) = _
    rw [mergeLoop_flush x xs h1]
    rw [show mergeTwo (x :: xs) [] = x :: xs from by rw [mergeTwo]]
  | x :: xs, y :: ys =>
    have hx := h1
    have hy := h2
    rw [List.pairwise_cons] at hx hy
    show (match heapqMerge [x :: xs, y :: ys] with
      | [] => (([] : List IdxTriple), false)
      | first :: rest => (mergeLoop first rest, true)) = _
    rw [heapqMerge_two]
    rcases lt_trichotomy x.1 y.1 with hlt | heq | hgt
    · rw [pyMerge2, if_pos (by omega)]
      show (mergeLoop x (pyMerge2 xs (y :: ys)), true) = _
      rw [mergeLoop_pyMerge2 (xs.length + (y :: ys).length) xs (y :: ys) x
        (le_refl _) hx.2 h2 hx.1 (by
          intro e he
          rcases List.mem_cons.mp he with rfl | h3
          · exact hlt
          · exact lt_trans hlt (hy.1 e h3))]
      rw [show mergeTwo (x :: xs) (y :: ys) = x :: mergeTwo xs (y :: ys) from by
        rw [mergeTwo, if_pos hlt]]
    · rw [pyMerge2, if_pos (by omega)]
      show (mergeLoop x (pyMerge2 xs (y :: ys)), true) = _
      rw [pyMerge2_cons_gt y ys xs (by
        intro e he
        have := hx.1 e he
        omega)]
      rw [mergeLoop, if_pos (by omega)]
      rw [mergeLoop_pyMerge2 (xs.length + ys.length) xs ys (combineTriple x y)
        (le_refl _) hx.2 hy.2 (by
          intro e he
          exact hx.1 e he)
        (by
          intro e he
          have := hy.1 e he
          show x.1 < e.1
          omega)]
      rw [show mergeTwo (x :: xs) (y :: ys) = combineTriple x y :: mergeTwo xs ys from by
        rw [mergeTwo, if_neg (by omega), if_neg (by omega)]]
    · rw [pyMerge2, if_neg (by omega)]
      show (mergeLoop y (pyMerge2 (x :: xs) ys), true) = _
      rw [mergeLoop_pyMerge2 ((x :: xs).length + ys.length) (x :: xs) ys y
        (le_refl _) h1 hy.2 (by
          intro e he
          rcases List.mem_cons.mp he with rfl | h3
          · exact hgt
          · exact lt_trans hgt (hx.1 e h3)) hy.1]
      rw [show mergeTwo (x :: xs) (y :: ys) = y :: mergeTwo (x :: xs) ys from by
        rw [mergeTwo, if_neg (by omega), if_pos hgt]]

lemma heapqMerge_all_nil : ∀ (indices : List (List IdxTriple)),
    (∀ I ∈ indices, I = []) → heapqMerge indices = [] := by
  intro indices
  induction indices with
  | nil => intro _; rfl
  | cons I rest ih =>
    intro h
    show pyMerge2 I (heapqMerge rest) = []
    rw [h I (by simp), ih fun J hJ => h J (by simp [hJ])]
    rw [pyMerge2]

/-- An all-empty (or reader-less) merge raises before appending anything. -/
lemma merge_index_all_nil (indices : List (List IdxTriple))
    (h : ∀ I ∈ indices, I = []) : merge_index indices = ([], false) := by
  show (match heapqMerge indices with
    | [] => (([] : List IdxTriple), false)
    | first :: rest => (mergeLoop first rest, true)) = ([], false)
  rw [heapqMerge_all_nil indices h]

/-! ### Claim theorems -/

/-- C1 (counterexample): the round trip `decode(encode L) = L` fails on
the code as claimed for arbitrary non-empty lists of non-negative
integers.  The gap-based `VBEPostings` corrupts the unsorted list
`[5, 3]` (its negative gap is floor-reduced to the byte 254, which
decodes to 126, giving `[5, 131]`); `StandardPostings.encode` raises
OverflowError on `[2^64]` because the value does not fit an unsigned
long item; and even the sorted in-range list `[2^62, 2^63 + 5]` fails
under `VBEPostings`, because its gaps both fit `int64`, so the
`np.cumsum` of `decode` runs on an `int64` array and the second prefix
sum `2^63 + 5` silently wraps to a negative value. -/
theorem decode_encode_roundtrip_counterexample :
    (VBEPostings.encode [5, 3]).bind VBEPostings.decode ≠ some [5, 3] ∧
    (StandardPostings.encode [2 ^ 64]).bind StandardPostings.decode ≠ some [2 ^ 64] ∧
    (VBEPostings.encode [2 ^ 62, 2 ^ 63 + 5]).bind VBEPostings.decode ≠
      some [2 ^ 62, 2 ^ 63 + 5] := by
  refine ⟨?_, by decide, ?_⟩
  · have e5 : VBEPostings.vb_encode_number 5 = [133] := by
      show VBEPostings.addLast128 (VBEPostings.vbDigits 5) = [133]
      rw [VBEPostings.vbDigits_of_lt 5 (by decide)]
      decide
    have em2 : VBEPostings.vb_encode_number (-2) = [254] := by
      show VBEPostings.addLast128 (VBEPostings.vbDigits (-2)) = [254]
      rw [VBEPostings.vbDigits_of_lt (-2) (by decide)]
      decide
    have hdiff : VBEPostings.npDiff0 [5, 3] = [5, -2] := by decide
    have hcm : concatMap VBEPostings.vb_encode_number [5, -2] = [133, 254] := by
      show VBEPostings.vb_encode_number 5 ++ (VBEPostings.vb_encode_number (-2) ++ []) =
        [133, 254]
      rw [e5, em2]
      rfl
    show (VBEPostings.vb_encode (VBEPostings.npDiff0 [5, 3])).bind VBEPostings.decode ≠
      some [5, 3]
    rw [hdiff]
    show (arrayL_tobytes (concatMap VBEPostings.vb_encode_number [5, -2])).bind
      VBEPostings.decode ≠ some [5, 3]
    rw [hcm]
    decide
  · have hgaps : ∀ g ∈ VBEPostings.npDiff0 [2 ^ 62, 2 ^ 63 + 5], 0 ≤ g := by decide
    rw [VBEPostings.vbe_decode_encode_eq _ hgaps]
    decide

/-- C1 (amended): for every non-empty non-decreasing list of
non-negative integers whose elements stay below `2^63` — so that the
`int64` array `np.cumsum` of `decode` uses on the gap sequence never
wraps — `decode(encode L) = L` holds for both codec strategies. -/
theorem decode_encode_roundtrip (L : List Int) (hne : L ≠ [])
    (hsorted : List.Chain' (· ≤ ·) L)
    (hbound : ∀ x ∈ L, 0 ≤ x ∧ x < 2 ^ 63) :
    (StandardPostings.encode L).bind StandardPostings.decode = some L ∧
    (VBEPostings.encode L).bind VBEPostings.decode = some L := by
  constructor
  · refine arrayL_roundtrip L fun x hx => ⟨(hbound x hx).1, ?_⟩
    have := (hbound x hx).2
    have hcmp : (2 : Int) ^ 63 < (ulBound : Int) := by norm_num [ulBound, ulSize]
    omega
  · exact VBEPostings.vbe_roundtrip L hsorted hbound

/-- Witness for C1 (amended) at the repository's own test postings list. -/
theorem decode_encode_roundtrip_witness :
    (StandardPostings.encode [34, 67, 89, 454, 2345738]).bind StandardPostings.decode
        = some [34, 67, 89, 454, 2345738] ∧
    (VBEPostings.encode [34, 67, 89, 454, 2345738]).bind VBEPostings.decode
        = some [34, 67, 89, 454, 2345738] :=
  decode_encode_roundtrip [34, 67, 89, 454, 2345738] (by decide)
    (by norm_num [List.chain'_cons]) (by decide)

/-- C2 (code bug): `vb_encode` serializes its digit stream through the
8-byte `array("L")` codec, so the single base-128 digit of the input
`[1]` occupies 8 physical bytes instead of the specified one byte per
digit. -/
theorem vb_encode_wide_storage :
    (VBEPostings.vb_encode [1]).map List.length = some 8 ∧
    (concatMap VBEPostings.vb_encode_number [1]).length = 1 := by
  have e1 : VBEPostings.vb_encode_number 1 = [129] := by
    show VBEPostings.addLast128 (VBEPostings.vbDigits 1) = [129]
    rw [VBEPostings.vbDigits_of_lt 1 (by decide)]
    decide
  have hcm : concatMap VBEPostings.vb_encode_number [1] = [129] := by
    show VBEPostings.vb_encode_number 1 ++ [] = [129]
    rw [e1]
    rfl
  constructor
  · show (arrayL_tobytes (concatMap VBEPostings.vb_encode_number [1])).map List.length =
      some 8
    rw [hcm]
    decide
  · rw [hcm]
    rfl

/-- C10: the term-frequency round trip
`decode_tf(encode_tf L) = L` holds for every non-empty list of values
in `[0, 128)` (each value becomes one stop byte whose 7 zero padding
bytes leave the decoder accumulator at 0), and it does not extend to
values `≥ 128`: `encode_tf` stores each base-128 digit in a fixed-width
word while `decode_tf` consumes the stream one raw byte at a time, so
`[128]` decodes to `[128^8]`. -/
theorem encode_decode_tf_vbe :
    (∀ L : List Int, L ≠ [] → (∀ x ∈ L, 0 ≤ x ∧ x < 128) →
      (VBEPostings.encode_tf L).map VBEPostings.decode_tf = some L) ∧
    (VBEPostings.encode_tf [128]).map VBEPostings.decode_tf ≠ some [128] := by
  constructor
  · intro L _ h
    exact VBEPostings.tf_roundtrip_small L h
  · have e128 : VBEPostings.vb_encode_number 128 = [1, 128] := by
      show VBEPostings.addLast128 (VBEPostings.vbDigits 128) = [1, 128]
      rw [VBEPostings.vbDigits_of_ge 128 (by decide),
        VBEPostings.vbDigits_of_lt _ (by decide)]
      decide
    have hcm : concatMap VBEPostings.vb_encode_number [128] = [1, 128] := by
      show VBEPostings.vb_encode_number 128 ++ [] = [1, 128]
      rw [e128]
      rfl
    show (arrayL_tobytes (concatMap VBEPostings.vb_encode_number [128])).map
      VBEPostings.decode_tf ≠ some [128]
    rw [hcm]
    decide

/-- Witness for C10 at the in-range list `[1, 127]`. -/
theorem encode_decode_tf_vbe_witness :
    (VBEPostings.encode_tf [1, 127]).map VBEPostings.decode_tf = some [1, 127] :=
  encode_decode_tf_vbe.1 [1, 127] (by decide) (by decide)

/-- C3: with every stored term frequency at least 1, `retrieve_bm25`
returns exactly the same ranked `(score, documentPath)` list as
`retrieve_tfidf`, for every query, `k`, and every choice of `k1` and
`b`: its scoring body is numerically identical to TF-IDF and uses
neither parameter and no document-length normalization. -/
theorem retrieve_bm25_eq_tfidf_result (lg : ℚ → ℚ) (normalize : String → List String)
    (st : BSBIState) (query : String) (k : Nat) (k1 b : ℚ)
    (htf : ∀ e ∈ st.index.entries, ∀ tf ∈ e.2.2, 1 ≤ tf) :
    (BSBIIndex.retrieve_bm25 lg normalize st query k k1 b).1 =
      (BSBIIndex.retrieve_tfidf lg normalize st query k).1 := by
  rw [BSBIIndex.retrieve_bm25_eq_retrieve_tfidf lg normalize st query k k1 b htf]

/-- Witness for C3 on a two-document index. -/
theorem retrieve_bm25_eq_tfidf_result_witness :
    (BSBIIndex.retrieve_bm25 (fun _ => 0) (fun q => [q])
      ⟨⟨["cat", "dog"]⟩, ⟨["a.txt", "b.txt"]⟩,
        ⟨[(0, [0], [2]), (1, [0, 1], [1, 3])], [(0, 3), (1, 3)]⟩⟩ "dog" 10 (6 / 5) (3 / 4)).1 =
      (BSBIIndex.retrieve_tfidf (fun _ => 0) (fun q => [q])
        ⟨⟨["cat", "dog"]⟩, ⟨["a.txt", "b.txt"]⟩,
          ⟨[(0, [0], [2]), (1, [0, 1], [1, 3])], [(0, 3), (1, 3)]⟩⟩ "dog" 10).1 :=
  retrieve_bm25_eq_tfidf_result (fun _ => 0) (fun q => [q]) _ "dog" 10 (6 / 5) (3 / 4)
    (by decide)

/-- C4: `retrieve_tfidf` scores term-at-a-time exactly as the
specification words it, provided the loaded index stores only term ids
of the loaded vocabulary: per known term with positive df it adds
`log10(N/df) * (1 + log10 tf)` (weight 0 at `tf = 0`) into each
posting's document score, then sorts by score descending and returns at
most `k` pairs with paths from the IdentifierMap inverse lookup. -/
theorem retrieve_tfidf_matches_spec (lg : ℚ → ℚ) (normalize : String → List String)
    (st : BSBIState) (query : String) (k : Nat)
    (hWF : ∀ e ∈ st.index.entries, e.1 < st.term_id_map.strs.length) :
    (BSBIIndex.retrieve_tfidf lg normalize st query k).1 =
      BSBIIndex.retrieve_tfidf_spec lg normalize st query k :=
  BSBIIndex.retrieve_tfidf_fst_eq_spec lg normalize st query k hWF

/-- Witness for C4 on a two-document index. -/
theorem retrieve_tfidf_matches_spec_witness :
    (BSBIIndex.retrieve_tfidf (fun _ => 0) (fun q => [q])
      ⟨⟨["cat", "dog"]⟩, ⟨["a.txt", "b.txt"]⟩,
        ⟨[(0, [0], [2]), (1, [0, 1], [1, 3])], [(0, 3), (1, 3)]⟩⟩ "dog" 10).1 =
      BSBIIndex.retrieve_tfidf_spec (fun _ => 0) (fun q => [q])
        ⟨⟨["cat", "dog"]⟩, ⟨["a.txt", "b.txt"]⟩,
          ⟨[(0, [0], [2]), (1, [0, 1], [1, 3])], [(0, 3), (1, 3)]⟩⟩ "dog" 10 :=
  retrieve_tfidf_matches_spec (fun _ => 0) (fun q => [q]) _ "dog" 10 (by decide)

/-- C7: an empty or entirely out-of-vocabulary preprocessed query gives
the empty result list from both retrieval functions (never an error:
the modelled reader answers empty postings for unknown ids), and an
out-of-vocabulary query term contributes nothing — filtering the
unknown terms out of the query leaves both results unchanged.  Both
parts assume the loaded index stores only vocabulary term ids. -/
theorem retrieve_oov_behavior :
    (∀ (lg : ℚ → ℚ) (nm : String → List String) (st : BSBIState) (query : String)
      (k : Nat) (k1 b : ℚ),
      (∀ e ∈ st.index.entries, e.1 < st.term_id_map.strs.length) →
      (∀ t ∈ nm query, strIndex st.term_id_map.strs t = none) →
      (BSBIIndex.retrieve_tfidf lg nm st query k).1 = [] ∧
        (BSBIIndex.retrieve_bm25 lg nm st query k k1 b).1 = []) ∧
    (∀ (lg : ℚ → ℚ) (nm nm2 : String → List String) (st : BSBIState) (query : String)
      (k : Nat) (k1 b : ℚ),
      (∀ e ∈ st.index.entries, e.1 < st.term_id_map.strs.length) →
      nm2 query = (nm query).filter (fun t => (strIndex st.term_id_map.strs t).isSome) →
      (BSBIIndex.retrieve_tfidf lg nm2 st query k).1 =
          (BSBIIndex.retrieve_tfidf lg nm st query k).1 ∧
        (BSBIIndex.retrieve_bm25 lg nm2 st query k k1 b).1 =
          (BSBIIndex.retrieve_bm25 lg nm st query k k1 b).1) :=
  ⟨fun lg nm st query k k1 b hWF hoov =>
      BSBIIndex.retrieve_oov_empty lg nm st query k k1 b hWF hoov,
    fun lg nm nm2 st query k k1 b hWF hfilter =>
      BSBIIndex.retrieve_filter_oov lg nm nm2 st query k k1 b hWF hfilter⟩

/-- Witness for C7: the out-of-vocabulary query "xyzzy" on a one-term
index returns no results from either function. -/
theorem retrieve_oov_behavior_witness :
    (BSBIIndex.retrieve_tfidf (fun _ => 0) (fun q => [q])
      ⟨⟨["apple"]⟩, ⟨["a.txt"]⟩, ⟨[(0, [0], [1])], [(0, 1)]⟩⟩ "xyzzy" 10).1 = [] ∧
    (BSBIIndex.retrieve_bm25 (fun _ => 0) (fun q => [q])
      ⟨⟨["apple"]⟩, ⟨["a.txt"]⟩, ⟨[(0, [0], [1])], [(0, 1)]⟩⟩ "xyzzy" 10 (6 / 5) (3 / 4)).1
      = [] :=
  retrieve_oov_behavior.1 (fun _ => 0) (fun q => [q]) _ "xyzzy" 10 (6 / 5) (3 / 4)
    (by decide) (by decide)

/-- C8 (counterexample): a retrieval call is not read-only on the
loaded IdentifierMap snapshots — the auto-create lookup of the
out-of-vocabulary query term "zzz" appends a fresh id to
`term_id_map`. -/
theorem retrieve_mutates_term_map :
    ((BSBIIndex.retrieve_tfidf (fun _ => 0) (fun _ => ["zzz"])
      ⟨⟨["apple"]⟩, ⟨["d.txt"]⟩, ⟨[], []⟩⟩ "zzz" 10).2).term_id_map ≠
      (⟨["apple"]⟩ : IdMap) := by
  decide

/-- C8 (amended): after the snapshots are loaded, a retrieval call
whose preprocessed query terms are all already in the vocabulary
leaves the whole state — `term_id_map`, `doc_id_map` and the index —
unchanged; only an out-of-vocabulary term makes the auto-create lookup
assign a fresh id to `term_id_map` (nothing is persisted either way). -/
theorem retrieve_leaves_maps_unchanged (lg : ℚ → ℚ) (nm : String → List String)
    (st : BSBIState) (query : String) (k : Nat) (k1 b : ℚ)
    (hknown : ∀ t ∈ nm query, t ∈ st.term_id_map.strs) :
    (BSBIIndex.retrieve_tfidf lg nm st query k).2 = st ∧
    (BSBIIndex.retrieve_bm25 lg nm st query k k1 b).2 = st :=
  ⟨BSBIIndex.retrieve_tfidf_snd_const lg nm st query k hknown,
    BSBIIndex.retrieve_bm25_snd_const lg nm st query k k1 b hknown⟩

/-- Witness for C8 (amended) on an in-vocabulary query. -/
theorem retrieve_leaves_maps_unchanged_witness :
    (BSBIIndex.retrieve_tfidf (fun _ => 0) (fun q => [q])
      ⟨⟨["apple"]⟩, ⟨["a.txt"]⟩, ⟨[(0, [0], [1])], [(0, 1)]⟩⟩ "apple" 10).2 =
      ⟨⟨["apple"]⟩, ⟨["a.txt"]⟩, ⟨[(0, [0], [1])], [(0, 1)]⟩⟩ ∧
    (BSBIIndex.retrieve_bm25 (fun _ => 0) (fun q => [q])
      ⟨⟨["apple"]⟩, ⟨["a.txt"]⟩, ⟨[(0, [0], [1])], [(0, 1)]⟩⟩ "apple" 10 (6 / 5) (3 / 4)).2 =
      ⟨⟨["apple"]⟩, ⟨["a.txt"]⟩, ⟨[(0, [0], [1])], [(0, 1)]⟩⟩ :=
  retrieve_leaves_maps_unchanged (fun _ => 0) (fun q => [q]) _ "apple" 10 (6 / 5) (3 / 4)
    (by decide)

/-- C5: merging two intermediate indices with strictly ascending termId
iteration, sorted postings and disjoint document-id sets appends each
distinct termId exactly once in ascending order; a termId present in
both inputs gets the ascending union of the two postings lists with the
corresponding tf values preserved (its written `(docId, tf)` zip is
sorted by docId and a permutation of the two input zips), and a termId
present in only one input passes through unchanged. -/
theorem merge_index_two_blocks (I1 I2 : List IdxTriple)
    (h1 : I1.Pairwise (fun a b => a.1 < b.1))
    (h2 : I2.Pairwise (fun a b => a.1 < b.1))
    (hp1 : ∀ e ∈ I1, e.2.1.Pairwise (· < ·))
    (hp2 : ∀ e ∈ I2, e.2.1.Pairwise (· < ·))
    (hdisj : ∀ e1 ∈ I1, ∀ e2 ∈ I2, ∀ d ∈ e1.2.1, d ∉ e2.2.1) :
    (((merge_index [I1, I2]).1.map fun e => e.1).Pairwise (· < ·)) ∧
    (∀ t, (∃ e ∈ (merge_index [I1, I2]).1, e.1 = t) ↔
      (∃ e ∈ I1, e.1 = t) ∨ (∃ e ∈ I2, e.1 = t)) ∧
    (∀ (t : Nat) (p1 f1 p2 f2 : List Nat), (t, p1, f1) ∈ I1 → (t, p2, f2) ∈ I2 →
      ∃ p f, (t, p, f) ∈ (merge_index [I1, I2]).1 ∧
        (p.zip f).Pairwise (fun u v => u.1 < v.1) ∧
        List.Perm (p.zip f) (p1.zip f1 ++ p2.zip f2)) ∧
    (∀ e ∈ I1, (∀ f ∈ I2, f.1 ≠ e.1) → e ∈ (merge_index [I1, I2]).1) ∧
    (∀ e ∈ I2, (∀ f ∈ I1, f.1 ≠ e.1) → e ∈ (merge_index [I1, I2]).1) := by
  by_cases hboth : I1 = [] ∧ I2 = []
  · obtain ⟨rfl, rfl⟩ := hboth
    have hmi : merge_index ([[], []] : List (List IdxTriple)) = ([], false) :=
      merge_index_all_nil _ (by
        intro I hI
        simp only [List.mem_cons, List.mem_singleton] at hI
        rcases hI with rfl | rfl | h
        · rfl
        · rfl
        · simp at h)
    rw [hmi]
    refine ⟨by simp, by simp, by simp, by simp, by simp⟩
  · have hne : I1 ≠ [] ∨ I2 ≠ [] := by tauto
    rw [merge_index_two I1 I2 h1 h2 hne]
    refine ⟨?_, ?_, ?_, ?_, ?_⟩
    · rw [List.pairwise_map]
      exact mergeTwo_keys_pairwise I1 I2 h1 h2
    · exact mergeTwo_key_iff I1 I2
    · intro t p1 f1 p2 f2 hm1 hm2
      have hzdisj : ∀ x ∈ p1.zip f1, ∀ y ∈ p2.zip f2, x.1 ≠ y.1 := by
        intro x hx y hy hxy
        have hx1 : x.1 ∈ p1 := (List.of_mem_zip hx).1
        have hy1 : y.1 ∈ p2 := (List.of_mem_zip hy).1
        exact hdisj (t, p1, f1) hm1 (t, p2, f2) hm2 x.1 hx1 (hxy ▸ hy1)
      refine ⟨(merge_and_sort_posts_and_tfs (p1.zip f1) (p2.zip f2)).map Prod.fst,
        (merge_and_sort_posts_and_tfs (p1.zip f1) (p2.zip f2)).map Prod.snd, ?_, ?_, ?_⟩
      · exact mergeTwo_both I1 I2 h1 h2 t p1 f1 p2 f2 hm1 hm2
      · rw [← List.zip_of_prod rfl rfl]
        exact mastz_sorted (p1.zip f1) (p2.zip f2)
          (pairwise_fst_zip (hp1 (t, p1, f1) hm1))
          (pairwise_fst_zip (hp2 (t, p2, f2) hm2)) hzdisj
      · rw [← List.zip_of_prod rfl rfl]
        exact mastz_perm (p1.zip f1) (p2.zip f2) hzdisj
    · exact mergeTwo_left_only I1 I2
    · exact mergeTwo_right_only I1 I2

/-- Witness for C5: the pass-through of the only-in-first term 3. -/
theorem merge_index_two_blocks_witness :
    ((3 : Nat), [5], [1]) ∈
      (merge_index [[(1, [1], [2]), (3, [5], [1])], [(1, [2], [4]), (2, [7], [1])]]).1 :=
  (merge_index_two_blocks [(1, [1], [2]), (3, [5], [1])] [(1, [2], [4]), (2, [7], [1])]
    (by decide) (by decide) (by decide) (by decide) (by decide)).2.2.2.1
    (3, [5], [1]) (by decide) (by decide)

/-- C6: `write_to_index` appends each distinct termId of the input
exactly once, in ascending order; every postings list is strictly
ascending and duplicate-free and holds exactly the docIds paired with
the term; the co-indexed tf list holds the multiplicity of each
`(termId, docId)` pair in the input, and every stored tf is at least
1. -/
theorem write_to_index_inverts (td_pairs : List (Nat × Nat)) :
    ((BSBIIndex.write_to_index td_pairs).map (fun e => e.1)).Pairwise (· < ·) ∧
    (∀ t, t ∈ (BSBIIndex.write_to_index td_pairs).map (fun e => e.1) ↔
      t ∈ td_pairs.map Prod.fst) ∧
    ∀ e ∈ BSBIIndex.write_to_index td_pairs,
      e.2.1.Pairwise (· < ·) ∧
      (∀ d, d ∈ e.2.1 ↔ (e.1, d) ∈ td_pairs) ∧
      e.2.2 = e.2.1.map (fun d => BSBIIndex.tdCount e.1 d td_pairs) ∧
      (∀ c ∈ e.2.2, 1 ≤ c) :=
  BSBIIndex.write_to_index_spec td_pairs

/-- Witness for C6: the tf list of term 2 holds the pair
multiplicities of the block `[(2,7), (2,4), (5,1), (2,4)]`. -/
theorem write_to_index_inverts_witness :
    ([2, 1] : List Nat) =
      ([4, 7] : List Nat).map (fun d => BSBIIndex.tdCount 2 d [(2, 7), (2, 4), (5, 1), (2, 4)]) :=
  ((write_to_index_inverts [(2, 7), (2, 4), (5, 1), (2, 4)]).2.2 (2, [4, 7], [2, 1])
    (by decide)).2.2.1

/-- C9: with no readers, or with every reader yielding no triples,
`merge_index` hits StopIteration on the first `next(...)` call: it
errors out having appended nothing to the destination writer. -/
theorem merge_index_empty_aborts (indices : List (List IdxTriple))
    (h : ∀ I ∈ indices, I = []) : merge_index indices = ([], false) :=
  merge_index_all_nil indices h

/-- Witness for C9 with two empty readers. -/
theorem merge_index_empty_aborts_witness :
    merge_index [[], []] = ([], false) :=
  merge_index_empty_aborts [[], []] (by decide)
